import Mathlib

/-!
# toyJson: a shallow embedding of `json.h`

The header defines a tagged value type `JsonValue`, its serializer
`JsonValue::serialize`, the helper `skipWhitespace` and two parsers that are
both called `parse`: the cursor-level `parse(json, pos)` and the
whole-document `parse(json)`.

Conventions of the embedding.

* A text is a `List Char`; every `Char` stands for one `char` of the
  `std::string_view`.
* `std::string_view::operator[]` does not check its index.  A view is a pointer
  and a length into a larger buffer, so the embedding carries, next to the view
  `json`, the characters `beyond` that lie in readable memory directly after the
  view (`[]` when nothing is readable, `['\0']` for a view over a
  NUL-terminated string).  A read at an index outside `json ++ beyond` is the
  error `Err.fault`.  Only `operator[]` sees `beyond`: `size()`, `empty()` and
  `substr` work on the view alone.
* `size_t` subtraction wraps modulo `2 ^ 64` (`szSub`).
* `while` loops are recursive functions over an iteration budget; the recursion
  of `parse(json, pos)` runs over a depth budget.  An exhausted budget is the
  error `Err.outOfFuel`, so a theorem that gives a result also says that the
  budget was enough; `parse_terminates` proves that no budget is ever
  exhausted.
* Floating point is not interpreted: a `double` payload records the text that
  was handed to `std::stod`, and `std::to_string(double)` is a parameter of
  `serialize`.
-/

namespace ToyJson

/-- Payload of the `double` alternative: the decimal text handed to `std::stod`.
Its numeric value is not interpreted. -/
structure JDouble where
  src : List Char
deriving DecidableEq, Repr

/-- The class `JsonValue`: a `std::variant` over
`nullptr_t, bool, int, double, std::string, JsonArray, JsonObject`
(`JsonArray = std::vector<JsonValue>`, `JsonObject = std::map<std::string, JsonValue>`;
the map is kept as its list of entries in iteration order). -/
inductive JsonValue where
  | null
  | bool (b : Bool)
  | int (i : Int)
  | double (d : JDouble)
  | string (s : List Char)
  | array (arr : List JsonValue)
  | object (obj : List (List Char × JsonValue))

/-- The alias `JsonArray`. -/
abbrev JsonArray := List JsonValue

/-- The alias `JsonObject`, as the entries of the `std::map` in iteration order. -/
abbrev JsonObject := List (List Char × JsonValue)

/-- The method `JsonValue::type()`: the index of the active alternative. -/
def JsonValue.type : JsonValue → Nat
  | .null => 0
  | .bool _ => 1
  | .int _ => 2
  | .double _ => 3
  | .string _ => 4
  | .array _ => 5
  | .object _ => 6

mutual
/-- Trees built only from null, bool and int nodes, alone or nested in arrays
and objects. -/
def JsonValue.plain : JsonValue → Bool
  | .null => true
  | .bool _ => true
  | .int _ => true
  | .double _ => false
  | .string _ => false
  | .array arr => JsonValue.plainArr arr
  | .object obj => JsonValue.plainObj obj
/-- Every element of an array is `plain`. -/
def JsonValue.plainArr : List JsonValue → Bool
  | [] => true
  | v :: rest => JsonValue.plain v && JsonValue.plainArr rest
/-- Every value of an object is `plain`. -/
def JsonValue.plainObj : List (List Char × JsonValue) → Bool
  | [] => true
  | (_, v) :: rest => JsonValue.plain v && JsonValue.plainObj rest
end

/-- The values that are null, a bool, an int between 0 and 9, the empty array
or the empty object. -/
def JsonValue.leafOrEmpty : JsonValue → Bool
  | .null => true
  | .bool _ => true
  | .int i => decide (0 ≤ i ∧ i ≤ 9)
  | .array [] => true
  | .object [] => true
  | _ => false

/-- The assignment `obj[key] = value` on a `std::map<std::string, JsonValue>`: entries are kept
in ascending key order (`std::string::operator<`, lexicographic), an existing
key is overwritten. -/
def mapInsert (k : List Char) (v : JsonValue) : JsonObject → JsonObject
  | [] => [(k, v)]
  | (k', v') :: rest =>
    if k < k' then (k, v) :: (k', v') :: rest
    else if k = k' then (k, v) :: rest
    else (k', v') :: mapInsert k v rest

/-- A `JsonObject` filled by inserting the given entries one after the other
into an empty map. -/
def mapOfList (entries : List (List Char × JsonValue)) : JsonObject :=
  entries.foldl (fun m e => mapInsert e.1 e.2 m) []

/-- The library function `std::to_string(int)`. -/
def to_string (i : Int) : List Char := (toString i).toList

mutual
/-- The method `JsonValue::serialize` (its `Visitor`); `fmt` is `std::to_string(double)`. -/
def serialize (fmt : JDouble → List Char) : JsonValue → List Char
  | .null => "null".toList
  | .bool b => if b then "true".toList else "false".toList
  | .int i => to_string i
  | .double d => fmt d
  | .string s => "\"".toList ++ s ++ "\"".toList
  | .array arr => "[".toList ++ serializeArr fmt arr true ++ "]".toList
  | .object obj => "\x7b".toList ++ serializeObj fmt obj true ++ "\x7d".toList
/-- The loop of the `JsonArray` visitor; `first` is `i == 0`. -/
def serializeArr (fmt : JDouble → List Char) : List JsonValue → Bool → List Char
  | [], _ => []
  | v :: rest, first =>
    (if first then [] else ", ".toList) ++ serialize fmt v ++ serializeArr fmt rest false
/-- The loop of the `JsonObject` visitor, with its flag `first`. -/
def serializeObj (fmt : JDouble → List Char) : List (List Char × JsonValue) → Bool → List Char
  | [], _ => []
  | (k, v) :: rest, first =>
    (if first then [] else ", ".toList)
      ++ ("\"".toList ++ k ++ "\": ".toList ++ serialize fmt v)
      ++ serializeObj fmt rest false
end

/-- What a call can end in other than a value. -/
inductive Err where
  /-- The exception `std::invalid_argument` with its message. -/
  | invalidArgument (what : String)
  /-- The exception `std::out_of_range` (from `std::stoi` or `string_view::substr`). -/
  | outOfRange
  /-- A read through `operator[]` outside the view and outside readable memory. -/
  | fault
  /-- The budget of the embedding ran out. -/
  | outOfFuel
deriving DecidableEq, Repr

/-- The parser's `throw std::invalid_argument("Invalid JSON string")`. -/
def invalidJson : Err := .invalidArgument "Invalid JSON string"

/-- The read `json[pos]`: unchecked indexing; `beyond` is the readable memory after the view. -/
def charAt (json beyond : List Char) (pos : Nat) : Except Err Char :=
  match (json ++ beyond).get? pos with
  | some c => .ok c
  | none => .error .fault

/-- Subtraction of `size_t` values, wrapping modulo `2 ^ 64`. -/
def szSub (a b : Nat) : Nat := if b ≤ a then a - b else a + 2 ^ 64 - b

/-- The call `json.substr(start, count)`: throws `std::out_of_range` when `start > size()`,
clamps `count` to the rest of the view. -/
def substr (json : List Char) (start count : Nat) : Except Err (List Char) :=
  if start > json.length then .error .outOfRange
  else .ok ((json.drop start).take count)

/-- The four characters `skipWhitespace` skips. -/
def isWs (c : Char) : Bool := c == ' ' || c == '\n' || c == '\r' || c == '\t'

/-- The loop of `skipWhitespace` over the rest of the view at `pos`. -/
def skipWs : List Char → Nat → Nat
  | [], pos => pos
  | c :: rest, pos => if isWs c then skipWs rest (pos + 1) else pos

/-- The function `skipWhitespace(json, pos)`; returns the new `pos`. It reads `json[pos]`
only under `pos < json.size()`. -/
def skipWhitespace (json : List Char) (pos : Nat) : Nat :=
  skipWs (json.drop pos) pos

/-- The test `isspace` in the "C" locale, used by `std::stoi` to skip leading blanks. -/
def isSpace (c : Char) : Bool :=
  c == ' ' || c == '\t' || c == '\n' || c == '\x0b' || c == '\x0c' || c == '\r'

/-- Value of a run of decimal digits. -/
def digitsVal (ds : List Char) : Nat :=
  ds.foldl (fun a c => 10 * a + (c.toNat - 48)) 0

/-- The library function `std::stoi(s)`: skips blanks, reads an optional sign and the longest run of
decimal digits; `std::invalid_argument` when there is no digit,
`std::out_of_range` when the value does not fit `int`. -/
def stoi (s : List Char) : Except Err Int :=
  let s1 := s.dropWhile isSpace
  let neg := s1.head? == some '-'
  let s2 := if s1.head? == some '-' || s1.head? == some '+' then s1.tail else s1
  let ds := s2.takeWhile Char.isDigit
  if ds.isEmpty then .error (.invalidArgument "stoi")
  else
    let v : Int := if neg then - (digitsVal ds : Int) else (digitsVal ds : Int)
    if v < -2147483648 ∨ 2147483647 < v then .error .outOfRange else .ok v

/-- The library function `std::stod(s)`, not interpreted: the result records
the text. Range errors of the conversion are outside the embedding. -/
def stod (s : List Char) : Except Err JDouble := .ok ⟨s⟩

/-- The characters that stop the number scan. -/
def isSep (c : Char) : Bool := c == ',' || c == '\n' || c == '\r' || c == '\t'

/-- The number scan
`while (pos < size && json[pos] != ',' && ... ) { pos++; if (json[pos] == '.' || json[pos] == 'e') isDouble = true; }`;
returns the final `pos` and `isDouble`. The read after `pos++` is unchecked. -/
def numScan (json beyond : List Char) : Nat → Nat → Bool → Except Err (Nat × Bool)
  | 0, _, _ => .error .outOfFuel
  | n + 1, pos, isDouble =>
    if pos < json.length then do
      let c ← charAt json beyond pos
      if isSep c then pure (pos, isDouble)
      else do
        let c1 ← charAt json beyond (pos + 1)
        numScan json beyond n (pos + 1) (isDouble || c1 == '.' || c1 == 'e')
    else pure (pos, isDouble)

/-- The conversion after the number scan of `parse(json, pos)`:
`begin == pos - 1` converts the single character `json[begin]`, otherwise
`json.substr(begin, pos - begin - 1)`. -/
def numberOf (json beyond : List Char) (begin pos : Nat) (isDouble : Bool) :
    Except Err JsonValue :=
  if isDouble then
    if begin = szSub pos 1 then do
      let c ← charAt json beyond begin
      let d ← stod [c]
      pure (.double d)
    else do
      let s ← substr json begin (szSub (szSub pos begin) 1)
      let d ← stod s
      pure (.double d)
  else
    if begin = szSub pos 1 then do
      let c ← charAt json beyond begin
      let i ← stoi [c]
      pure (.int i)
    else do
      let s ← substr json begin (szSub (szSub pos begin) 1)
      let i ← stoi s
      pure (.int i)

/-- The string scan of `parse(json, pos)`:
`while (json[pos] != '"') { if (pos >= size) throw; pos++; }`; returns the
position of the closing quote. -/
def strScanAt (json beyond : List Char) : Nat → Nat → Except Err Nat
  | 0, _ => .error .outOfFuel
  | n + 1, pos => do
    let c ← charAt json beyond pos
    if c == '"' then pure pos
    else if pos ≥ json.length then .error invalidJson
    else strScanAt json beyond n (pos + 1)

/-- The string scan of `parse(json)`:
`while (json[pos] != '"') { pos++; if (pos >= size) throw; }`. -/
def strScanDoc (json beyond : List Char) : Nat → Nat → Except Err Nat
  | 0, _ => .error .outOfFuel
  | n + 1, pos => do
    let c ← charAt json beyond pos
    if c == '"' then pure pos
    else if pos + 1 ≥ json.length then .error invalidJson
    else strScanDoc json beyond n (pos + 1)

/-- How the key scan of the object loop ends. -/
inductive KeyScan where
  /-- The scan stopped on a `':'` at this position. -/
  | found (pos : Nat)
  /-- The scan ran into the end or a `'}'`; the object is returned with this `pos`. -/
  | bail (pos : Nat)
deriving DecidableEq, Repr

/-- The key scan
`while (json[pos] != ':') { pos++; if (pos >= size || json[pos] == '}') { pos++; return obj; } }`. -/
def keyScan (json beyond : List Char) : Nat → Nat → Except Err KeyScan
  | 0, _ => .error .outOfFuel
  | n + 1, pos => do
    let c ← charAt json beyond pos
    if c == ':' then pure (.found pos)
    else if pos + 1 ≥ json.length then pure (.bail (pos + 2))
    else do
      let c1 ← charAt json beyond (pos + 1)
      if c1 == '}' then pure (.bail (pos + 2))
      else keyScan json beyond n (pos + 1)

/-- The object loop `while (pos < size && json[pos] != '}') { ... } return obj;`
(the same text in both parsers); `value` is the recursive `parse(json, pos)`. -/
def objLoop (json beyond : List Char) (value : Nat → Except Err (JsonValue × Nat)) :
    Nat → Nat → JsonObject → Except Err (JsonValue × Nat)
  | 0, _, _ => .error .outOfFuel
  | n + 1, pos, obj =>
    if pos < json.length then do
      let c ← charAt json beyond pos
      if c == '}' then pure (.object obj, pos)
      else do
        let pos := skipWhitespace json pos
        let c ← charAt json beyond pos
        if c == '}' then pure (.object obj, pos + 1)
        else if c != '"' then .error invalidJson
        else do
          let keyStart := pos + 1
          match ← keyScan json beyond (json.length + 1) pos with
          | .bail pos => pure (.object obj, pos)
          | .found pos => do
            let key ← substr json keyStart (szSub (szSub pos keyStart) 1)
            let pos := skipWhitespace json (pos + 1)
            if pos ≥ json.length then pure (.object obj, pos)
            else do
              let (v, pos) ← value pos
              let obj := mapInsert key v obj
              let c ← charAt json beyond pos
              if c != ',' then do
                let pos := skipWhitespace json pos
                let c ← charAt json beyond pos
                if c == '}' then pure (.object obj, pos + 1)
                else if c == ',' then objLoop json beyond value n (pos + 1) obj
                else .error invalidJson
              else objLoop json beyond value n (pos + 1) obj
    else pure (.object obj, pos)

/-- The array loop `while (pos < size && json[pos] != ']') { ... } return arr;`
(the same text in both parsers); `value` is the recursive `parse(json, pos)`. -/
def arrLoop (json beyond : List Char) (value : Nat → Except Err (JsonValue × Nat)) :
    Nat → Nat → JsonArray → Except Err (JsonValue × Nat)
  | 0, _, _ => .error .outOfFuel
  | n + 1, pos, arr =>
    if pos < json.length then do
      let c ← charAt json beyond pos
      if c == ']' then pure (.array arr, pos)
      else do
        let pos := skipWhitespace json pos
        let c ← charAt json beyond pos
        if c == ']' then pure (.array arr, pos + 1)
        else do
          let (v, pos) ← value pos
          let arr := arr ++ [v]
          let c ← charAt json beyond pos
          if c != ',' then do
            let pos := skipWhitespace json pos
            let c ← charAt json beyond pos
            if c == ']' then pure (.array arr, pos + 1)
            else if c == ',' then arrLoop json beyond value n (pos + 1) arr
            else arrLoop json beyond value n pos arr
          else arrLoop json beyond value n (pos + 1) arr
    else pure (.array arr, pos)

/-- The cursor-level `parse(std::string_view json, size_t& pos)`, with a budget
on the depth of its recursion; returns the value and the final `pos`. -/
def parseAt (json beyond : List Char) : Nat → Nat → Except Err (JsonValue × Nat)
  | 0, _ => .error .outOfFuel
  | fuel + 1, pos =>
    if json.isEmpty || pos ≥ json.length then pure (.null, pos)
    else do
      let c ← charAt json beyond pos
      if c == '{' then
        objLoop json beyond (parseAt json beyond fuel) (json.length + 1) (pos + 1) []
      else if c == '[' then
        arrLoop json beyond (parseAt json beyond fuel) (json.length + 1) (pos + 1) []
      else if c == '"' then do
        let start := pos + 1
        let pos ← strScanAt json beyond (json.length + 2) start
        let pos := pos + 1
        let s ← substr json start (szSub (szSub pos start) 1)
        pure (.string s, pos)
      else if c == 't' then pure (.bool true, pos + 1)
      else if c == 'f' then pure (.bool false, pos + 1)
      else if c == 'n' then pure (.null, pos + 1)
      else if c ≥ '0' && c ≤ '9' then do
        let begin := pos
        let (pos, isDouble) ← numScan json beyond (json.length + 1) pos false
        let v ← numberOf json beyond begin pos isDouble
        pure (v, pos)
      else if pos ≥ json.length then pure (.null, pos)
      else parseAt json beyond fuel (pos + 1)

/-- The cursor-level `parse(json, pos)`: the recursion is at most
`json.size() + 1` deep. -/
def parsePos (json beyond : List Char) (pos : Nat) : Except Err (JsonValue × Nat) :=
  parseAt json beyond (json.length + 1) pos

/-- The whole-document `parse(std::string_view json)`. -/
def parse (json beyond : List Char) : Except Err JsonValue :=
  if json.isEmpty then pure .null
  else do
    let pos := 1
    let c ← charAt json beyond 0
    if c == '{' then do
      let r ← objLoop json beyond (parsePos json beyond) (json.length + 1) pos []
      pure r.1
    else if c == '[' then do
      let r ← arrLoop json beyond (parsePos json beyond) (json.length + 1) pos []
      pure r.1
    else if c == '"' then do
      let pos ← strScanDoc json beyond (json.length + 1) (pos + 1)
      let pos := pos + 1
      let s ← substr json 1 (szSub pos 1)
      pure (.string s)
    else if c == 't' then pure (.bool true)
    else if c == 'f' then pure (.bool false)
    else if c == 'n' then pure .null
    else if c ≥ '0' && c ≤ '9' then do
      let (pos, isDouble) ← numScan json beyond (json.length + 1) pos false
      if isDouble then
        if pos = 1 then do
          let c0 ← charAt json beyond 0
          let d ← stod [c0]
          pure (.double d)
        else do
          let s ← substr json 0 (szSub pos 1)
          let d ← stod s
          pure (.double d)
      else
        if pos = 1 then do
          let c0 ← charAt json beyond 0
          let i ← stoi [c0]
          pure (.int i)
        else do
          let s ← substr json 0 (szSub pos 1)
          let i ← stoi s
          pure (.int i)
    else if pos ≥ json.length then pure .null
    else do
      let r ← parsePos json beyond (pos + 1)
      pure r.1

/-- A single NUL: the readable memory after a view over a NUL-terminated string. -/
def nul : List Char := ['\x00']

/-- The separator `", "` of the serializer. -/
def commaSpace : List Char := ", ".toList

/-- How the `JsonObject` visitor renders one entry: `"key": value`. -/
def renderEntry (fmt : JDouble → List Char) (e : List Char × JsonValue) : List Char :=
  "\"".toList ++ e.1 ++ "\": ".toList ++ serialize fmt e.2

/-- A string payload between double quotes, as the serializer writes it. -/
def quoted (s : List Char) : List Char := '"' :: s ++ ['"']

/-- No double quote occurs in `s`. -/
def noQuote (s : List Char) : Bool := s.all (fun c => c != '"')

/-- A key as the claims on objects take it: no `"`, no `:` and no `}` occurs in it. -/
def keyText (k : List Char) : Bool := k.all (fun c => c != '"' && c != ':' && c != '}')

/-- One entry of a compact object text: `"key":"value"`. -/
def entryText (e : List Char × List Char) : List Char := quoted e.1 ++ ':' :: quoted e.2

/-- The compact object text `{"k1":"s1",...,"kn":"sn"}` of string-valued entries. -/
def compactObject (es : List (List Char × List Char)) : List Char :=
  "\x7b".toList ++ ",".toList.intercalate (es.map entryText) ++ "\x7d".toList

/-- The entry of a `JsonObject` for a key and a string value. -/
def strEntry (e : List Char × List Char) : List Char × JsonValue := (e.1, .string e.2)

/-- A call that did not exhaust its budget: either it returned a result that
satisfies `P`, or it ended in an error of the program (an exception or a read
outside the text), not in `Err.outOfFuel`. -/
def okOr {α : Type} (P : α → Prop) : Except Err α → Prop
  | .ok a => P a
  | .error e => e ≠ .outOfFuel

/-- Every result of the call satisfies `P` (nothing is said when it ends in an error). -/
def okThen {α : Type} (P : α → Prop) (x : Except Err α) : Prop :=
  ∀ a, x = .ok a → P a

/-- The position a key scan ends with. -/
def KeyScan.pos : KeyScan → Nat
  | .found q => q
  | .bail q => q

/-! ## Reading characters -/

theorem get?_append_cons (pre rest : List Char) (c : Char) :
    (pre ++ c :: rest).get? pre.length = some c := by
  induction pre with
  | nil => rfl
  | cons a pre ih => simpa using ih

theorem charAt_append_cons (pre rest beyond : List Char) (c : Char) :
    charAt (pre ++ c :: rest) beyond pre.length = .ok c := by
  unfold charAt
  rw [List.append_assoc, List.cons_append, get?_append_cons]

theorem isEmpty_of_lt (json : List Char) (pos : Nat) (h : pos < json.length) :
    json.isEmpty = false := by
  cases json with
  | nil => simp at h
  | cons a l => rfl

theorem length_append_cons_gt (pre rest : List Char) (c : Char) :
    pre.length < (pre ++ c :: rest).length := by
  simp

/-! ## `skipWhitespace` over a run of whitespace -/

theorem skipWs_run (w rest : List Char) (d : Char) (pos : Nat)
    (hw : ∀ c ∈ w, isWs c = true) (hd : isWs d = false) :
    skipWs (w ++ d :: rest) pos = pos + w.length := by
  induction w generalizing pos with
  | nil => simp [skipWs, hd]
  | cons c w ih =>
    have hc : isWs c = true := hw c (List.mem_cons_self _ _)
    have hw2 : ∀ x ∈ w, isWs x = true := fun x hx => hw x (List.mem_cons_of_mem _ hx)
    rw [List.cons_append, skipWs, if_pos hc, ih (pos + 1) hw2, List.length_cons]
    omega

theorem skipWhitespace_run (pre w rest : List Char) (d : Char)
    (hw : ∀ c ∈ w, isWs c = true) (hd : isWs d = false) :
    skipWhitespace (pre ++ w ++ d :: rest) pre.length = pre.length + w.length := by
  unfold skipWhitespace
  rw [List.append_assoc, List.drop_left]
  exact skipWs_run w rest d pre.length hw hd

/-! ## The string scan of the whole-document parser -/

theorem strScanDoc_found (beyond rest mid pre : List Char) (n : Nat)
    (hmid : ∀ c ∈ mid, c ≠ '"') (hn : mid.length < n) :
    strScanDoc (pre ++ mid ++ '"' :: rest) beyond n pre.length
      = .ok (pre.length + mid.length) := by
  induction mid generalizing pre n with
  | nil =>
    obtain ⟨m, rfl⟩ : ∃ m, n = m + 1 := ⟨n - 1, by simp at hn; omega⟩
    have hc := charAt_append_cons pre rest beyond '"'
    rw [strScanDoc]
    simp only [List.append_nil, hc, bind, Except.bind]
    rfl
  | cons c mid ih =>
    obtain ⟨m, rfl⟩ : ∃ m, n = m + 1 := ⟨n - 1, by simp at hn; omega⟩
    have hc : charAt (pre ++ c :: mid ++ '"' :: rest) beyond pre.length = .ok c := by
      have := charAt_append_cons pre (mid ++ '"' :: rest) beyond c
      simpa using this
    have hne : (c == '"') = false := by
      simpa using hmid c (List.mem_cons_self _ _)
    have hlen : ¬ (pre.length + 1 ≥ (pre ++ c :: mid ++ '"' :: rest).length) := by
      simp
    have hrec := ih (pre ++ [c]) m (fun x hx => hmid x (List.mem_cons_of_mem _ hx))
      (by simp at hn; omega)
    simp only [List.append_assoc, List.singleton_append, List.length_append,
      List.length_singleton] at hrec
    rw [strScanDoc]
    simp only [hc, hne, hlen, bind, Except.bind, if_false, Bool.false_eq_true]
    simp only [List.append_assoc, List.cons_append, List.length_cons] at hrec ⊢
    rw [hrec]
    congr 1
    omega

theorem strScanDoc_unterminated (beyond mid pre : List Char) (n : Nat)
    (hmid : ∀ c ∈ mid, c ≠ '"') (hne : mid ≠ []) (hn : mid.length ≤ n) :
    strScanDoc (pre ++ mid) beyond n pre.length = .error invalidJson := by
  induction mid generalizing pre n with
  | nil => exact absurd rfl hne
  | cons c mid ih =>
    obtain ⟨m, rfl⟩ : ∃ m, n = m + 1 := ⟨n - 1, by simp at hn; omega⟩
    have hc : charAt (pre ++ c :: mid) beyond pre.length = .ok c :=
      charAt_append_cons pre mid beyond c
    have hq : (c == '"') = false := by
      simpa using hmid c (List.mem_cons_self _ _)
    rw [strScanDoc]
    cases mid with
    | nil =>
      simp only [hc, hq, bind, Except.bind, Bool.false_eq_true, if_false]
      simp
    | cons d mid =>
      have hlen : ¬ (pre.length + 1 ≥ (pre ++ c :: d :: mid).length) := by
        simp
      have hrec := ih (pre ++ [c]) m (fun x hx => hmid x (List.mem_cons_of_mem _ hx))
        (by simp) (by simp only [List.length_cons] at hn ⊢; omega)
      simp only [List.append_assoc, List.singleton_append, List.length_append,
        List.length_singleton] at hrec
      simp only [hc, hq, hlen, bind, Except.bind, if_false, Bool.false_eq_true]
      exact hrec

/-! ## C1: round trip -/

/-- C1, counterexample: the int `-5` is a tree of null/bool/int nodes and
serializes to `-5`, but the whole-document parser has no sign handling: it skips
the two characters and returns null, whatever lies beyond the text. -/
theorem roundtrip_fails_on_negative_int :
    JsonValue.plain (.int (-5)) = true ∧
    serialize (fun d => d.src) (.int (-5)) = "-5".toList ∧
    parse (serialize (fun d => d.src) (.int (-5))) [] = .ok .null ∧
    parse (serialize (fun d => d.src) (.int (-5))) nul = .ok .null ∧
    parse (serialize (fun d => d.src) (.int (-5))) [] ≠ .ok (.int (-5)) := by
  refine ⟨rfl, rfl, rfl, rfl, ?_⟩
  rw [show parse (serialize (fun d => d.src) (.int (-5))) [] = .ok .null from rfl]
  simp

/-- C1, amended: for every value that is null, a bool, an int between 0 and 9,
the empty array or the empty object, `parse(serialize(v))` returns `v`,
whatever `std::to_string(double)` is and whatever lies beyond the text. -/
theorem roundtrip_leaf_or_empty (fmt : JDouble → List Char) (beyond : List Char)
    (v : JsonValue) (h : v.leafOrEmpty = true) :
    parse (serialize fmt v) beyond = .ok v := by
  cases v with
  | null => rfl
  | bool b => cases b <;> rfl
  | int i =>
    have hi : 0 ≤ i ∧ i ≤ 9 := by simpa [JsonValue.leafOrEmpty] using h
    obtain ⟨h0, h9⟩ := hi
    interval_cases i <;> rfl
  | double d => simp [JsonValue.leafOrEmpty] at h
  | string s => simp [JsonValue.leafOrEmpty] at h
  | array arr =>
    cases arr with
    | nil => rfl
    | cons a rest => simp [JsonValue.leafOrEmpty] at h
  | object obj =>
    cases obj with
    | nil => rfl
    | cons a rest => simp [JsonValue.leafOrEmpty] at h

/-- Witness for `roundtrip_leaf_or_empty`: the int 7. -/
theorem roundtrip_leaf_or_empty_witness :
    JsonValue.leafOrEmpty (.int 7) = true ∧
    parse (serialize (fun d => d.src) (.int 7)) [] = .ok (.int 7) :=
  ⟨rfl, roundtrip_leaf_or_empty (fun d => d.src) [] (.int 7) rfl⟩

/-- What the parser returns on the serializations of three more trees of
null/bool/int nodes: the int 12, the array `[true]` and the object `a: 1`. With
a NUL readable after the text the results are the int 1, the array
`[true, null]` and the error "Invalid JSON string"; with nothing readable there
each of the three parses ends in a read outside the text. -/
theorem roundtrip_misreads :
    parse (serialize (fun d => d.src) (.int 12)) nul = .ok (.int 1) ∧
    parse (serialize (fun d => d.src) (.array [.bool true])) nul
      = .ok (.array [.bool true, .null]) ∧
    parse (serialize (fun d => d.src) (.object [("a".toList, .int 1)])) nul
      = .error (.invalidArgument "Invalid JSON string") ∧
    parse (serialize (fun d => d.src) (.int 12)) [] = .error .fault ∧
    parse (serialize (fun d => d.src) (.array [.bool true])) [] = .error .fault ∧
    parse (serialize (fun d => d.src) (.object [("a".toList, .int 1)])) [] = .error .fault :=
  ⟨rfl, rfl, rfl, rfl, rfl, rfl⟩

/-! ## C2, C3: compact objects and arrays of numbers -/

/-- C2, the code at the failing input `{"a":1,"b":2}`: the number scan of the
value `2` runs over the closing `}` to the end of the text and reads `json[13]`
there. With nothing readable beyond the text that read is a fault; with a NUL
beyond it the object loop finds neither `}` nor `,` and throws
"Invalid JSON string". No object is returned. -/
theorem parse_compact_object_fails :
    parse "\x7b\"a\":1,\"b\":2\x7d".toList [] = .error .fault ∧
    parse "\x7b\"a\":1,\"b\":2\x7d".toList nul = .error (.invalidArgument "Invalid JSON string") :=
  ⟨rfl, rfl⟩

/-- C3, the code at the failing input `[12, 3]`: the conversion takes
`substr(begin, pos - begin - 1)`, which drops the last digit of a number that
ends at a `,`, so the first element is read as `1`; the scan of the last number
runs over `]` and reads `json[7]`, a fault when nothing is readable there. The
same read happens on `[1, 2, 3]`. -/
theorem parse_array_drops_last_digit :
    parse "[12, 3]".toList nul = .ok (.array [.int 1, .int 3]) ∧
    parse "[12, 3]".toList [] = .error .fault ∧
    parse "[1, 2, 3]".toList nul = .ok (.array [.int 1, .int 2, .int 3]) ∧
    parse "[1, 2, 3]".toList [] = .error .fault :=
  ⟨rfl, rfl, rfl, rfl⟩

/-! ## C4: the two entry points -/

/-- C4, the code at the failing inputs `"ab"` and `-5,`: on the quoted text the
whole-document parser returns the payload `ab"` where the cursor-level parser
started at 0 returns `ab`; on `-5,` the whole-document parser skips two
characters and returns null where the cursor-level parser skips one and
returns the int 5. -/
theorem parse_entry_points_differ :
    parse "\"ab\"".toList [] = .ok (.string "ab\"".toList) ∧
    parsePos "\"ab\"".toList [] 0 = .ok (.string "ab".toList, 4) ∧
    parse "-5,".toList [] = .ok .null ∧
    parsePos "-5,".toList [] 0 = .ok (.int 5, 2) :=
  ⟨rfl, rfl, rfl, rfl⟩

/-! ## C5: quoted strings -/

/-- C5, the code at the failing inputs `"abc"` and `""`: the whole-document
string branch returns `json.substr(1, pos - 1)`, one character more than lies
between the quotes, so the payload of `"abc"` is `abc"`; its scan starts at
index 2, so on `""` it reads past the text and no string is returned. -/
theorem parse_string_keeps_closing_quote :
    parse "\"abc\"".toList [] = .ok (.string "abc\"".toList) ∧
    parse "\"abc\"".toList nul = .ok (.string "abc\"".toList) ∧
    parse "\"\"".toList [] = .error .fault ∧
    parse "\"\"".toList nul = .error (.invalidArgument "Invalid JSON string") :=
  ⟨rfl, rfl, rfl, rfl⟩

/-- The whole-document string branch on a quoted text with at least one
character `a` between the quotes and no quote after it: the payload is the text
between the quotes followed by the closing quote. The scan starts at index 2,
so `a` itself is never looked at. -/
theorem parse_quoted_keeps_quote (a : Char) (s beyond : List Char)
    (hs : ∀ c ∈ s, c ≠ '"') :
    parse ('"' :: a :: s ++ ['"']) beyond = .ok (.string (a :: s ++ ['"'])) := by
  have hscan : strScanDoc ('"' :: a :: s ++ ['"']) beyond
      (('"' :: a :: s ++ ['"']).length + 1) 2 = .ok (2 + s.length) :=
    strScanDoc_found beyond [] s ['"', a] _ hs (by simp; omega)
  have hc : charAt ('"' :: a :: s ++ ['"']) beyond 0 = .ok '"' := rfl
  have hne : ('"' :: a :: s ++ ['"']).isEmpty = false := rfl
  have hsub : substr ('"' :: a :: s ++ ['"']) 1 (szSub (2 + s.length + 1) 1)
      = .ok (a :: s ++ ['"']) := by
    have h1 : szSub (2 + s.length + 1) 1 = s.length + 2 := by
      unfold szSub
      rw [if_pos (by omega)]
      omega
    rw [h1]
    unfold substr
    rw [if_neg (by simp)]
    have h2 : (a :: s ++ ['"']).length = s.length + 2 := by simp
    simp only [List.cons_append, List.drop_succ_cons, List.drop_zero]
    rw [← h2]
    simp
  unfold parse
  simp only [hne, hc, hscan, hsub, bind, Except.bind]
  rfl

/-! ## C6: serializing objects -/

theorem mapInsert_keys (k : List Char) (v : JsonValue) (m : JsonObject) (x : List Char)
    (hx : x ∈ (mapInsert k v m).map Prod.fst) : x = k ∨ x ∈ m.map Prod.fst := by
  induction m with
  | nil => simpa [mapInsert] using hx
  | cons e rest ih =>
    obtain ⟨k', v'⟩ := e
    simp only [mapInsert] at hx
    split_ifs at hx with h1 h2
    · simp only [List.map_cons, List.mem_cons] at hx ⊢
      tauto
    · simp only [List.map_cons, List.mem_cons] at hx ⊢
      tauto
    · simp only [List.map_cons, List.mem_cons] at hx ⊢
      rcases hx with hx | hx
      · tauto
      · rcases ih hx with h | h <;> tauto

theorem mapInsert_sorted (k : List Char) (v : JsonValue) (m : JsonObject)
    (hm : (m.map Prod.fst).Sorted (· < ·)) :
    ((mapInsert k v m).map Prod.fst).Sorted (· < ·) := by
  induction m with
  | nil => simp [mapInsert]
  | cons e rest ih =>
    obtain ⟨k', v'⟩ := e
    simp only [List.map_cons, List.sorted_cons] at hm
    obtain ⟨hlt, hs⟩ := hm
    simp only [mapInsert]
    split_ifs with h1 h2
    · simp only [List.map_cons, List.sorted_cons, List.mem_cons]
      refine ⟨?_, hlt, hs⟩
      intro b hb
      rcases hb with hb | hb
      · rw [hb]; exact h1
      · exact lt_trans h1 (hlt b hb)
    · subst h2
      simp only [List.map_cons, List.sorted_cons]
      exact ⟨hlt, hs⟩
    · simp only [List.map_cons, List.sorted_cons]
      refine ⟨?_, ih hs⟩
      intro b hb
      rcases mapInsert_keys k v rest b hb with h | h
      · rw [h]
        rcases lt_trichotomy k k' with h3 | h3 | h3
        · exact absurd h3 h1
        · exact absurd h3 h2
        · exact h3
      · exact hlt b h

theorem mapInsert_comm (k1 k2 : List Char) (v1 v2 : JsonValue) (h : k1 ≠ k2) (m : JsonObject) :
    mapInsert k1 v1 (mapInsert k2 v2 m) = mapInsert k2 v2 (mapInsert k1 v1 m) := by
  induction m with
  | nil =>
    rcases lt_trichotomy k1 k2 with h3 | h3 | h3
    · simp [mapInsert, h3, h, Ne.symm h, not_lt_of_gt h3]
    · exact absurd h3 h
    · simp [mapInsert, h3, h, Ne.symm h, not_lt_of_gt h3]
  | cons e rest ih =>
    obtain ⟨k', v'⟩ := e
    rcases lt_trichotomy k1 k' with a | a | a <;> rcases lt_trichotomy k2 k' with b | b | b <;>
      rcases lt_trichotomy k1 k2 with c | c | c <;>
      first
        | exact absurd c h
        | (subst a; subst b; exact absurd rfl h)
        | exact absurd c (lt_asymm a)
        | exact absurd c (lt_asymm b)
        | exact absurd (lt_trans a (lt_trans b c)) (lt_irrefl _)
        | exact absurd (lt_trans b (lt_trans a c)) (lt_irrefl _)
        | (subst a; simp [mapInsert, *, not_lt_of_gt, ne_of_gt, ne_of_lt, Ne.symm h, lt_irrefl]; done)
        | (subst b; simp [mapInsert, *, not_lt_of_gt, ne_of_gt, ne_of_lt, Ne.symm h, lt_irrefl]; done)
        | simp [mapInsert, *, not_lt_of_gt, ne_of_gt, ne_of_lt, Ne.symm h, lt_irrefl]

theorem mapInsert_perm (k : List Char) (v : JsonValue) (m : JsonObject)
    (hk : k ∉ m.map Prod.fst) : (mapInsert k v m).Perm ((k, v) :: m) := by
  induction m with
  | nil => simp [mapInsert]
  | cons e rest ih =>
    obtain ⟨k', v'⟩ := e
    simp only [List.map_cons, List.mem_cons, not_or] at hk
    simp only [mapInsert]
    split_ifs with h1 h2
    · exact List.Perm.refl _
    · exact absurd h2 hk.1
    · exact ((ih hk.2).cons (k', v')).trans (List.Perm.swap _ _ _)

theorem foldl_mapInsert_sorted (entries : List (List Char × JsonValue)) (m : JsonObject)
    (hm : (m.map Prod.fst).Sorted (· < ·)) :
    ((entries.foldl (fun m e => mapInsert e.1 e.2 m) m).map Prod.fst).Sorted (· < ·) := by
  induction entries generalizing m with
  | nil => simpa using hm
  | cons e rest ih => exact ih _ (mapInsert_sorted e.1 e.2 m hm)

theorem foldl_mapInsert_perm (entries : List (List Char × JsonValue)) (m : JsonObject)
    (hnodup : (entries.map Prod.fst).Nodup)
    (hdisj : ∀ x ∈ entries.map Prod.fst, x ∉ m.map Prod.fst) :
    (entries.foldl (fun m e => mapInsert e.1 e.2 m) m).Perm (entries ++ m) := by
  induction entries generalizing m with
  | nil => simp
  | cons e rest ih =>
    simp only [List.map_cons, List.nodup_cons] at hnodup
    have he : e.1 ∉ m.map Prod.fst := hdisj e.1 (by rw [List.map_cons]; exact List.mem_cons_self _ _)
    have hstep := mapInsert_perm e.1 e.2 m he
    have hd : ∀ x ∈ rest.map Prod.fst, x ∉ (mapInsert e.1 e.2 m).map Prod.fst := by
      intro x hx hin
      rcases mapInsert_keys e.1 e.2 m x hin with h | h
      · rw [h] at hx
        exact hnodup.1 hx
      · exact hdisj x (by simp only [List.map_cons, List.mem_cons]; exact Or.inr hx) h
    have h1 := ih (mapInsert e.1 e.2 m) hnodup.2 hd
    simp only [List.foldl_cons]
    refine h1.trans ?_
    refine (List.Perm.append_left rest hstep).trans ?_
    simp only [List.cons_append]
    exact List.perm_middle

theorem mapOfList_perm_eq (entries entries' : List (List Char × JsonValue))
    (hperm : entries.Perm entries') (hnodup : (entries.map Prod.fst).Nodup) :
    mapOfList entries' = mapOfList entries := by
  unfold mapOfList
  symm
  apply List.Perm.foldl_eq' hperm
  intro x hx y hy z
  by_cases hxy : x = y
  · rw [hxy]
  · have hk : x.1 ≠ y.1 := fun h => hxy (List.inj_on_of_nodup_map hnodup hx hy h)
    exact mapInsert_comm y.1 x.1 y.2 x.2 (Ne.symm hk) _

theorem serializeObj_rest (fmt : JDouble → List Char) (rest : List (List Char × JsonValue))
    (e : List Char × JsonValue) :
    renderEntry fmt e ++ serializeObj fmt rest false
      = commaSpace.intercalate ((e :: rest).map (renderEntry fmt)) := by
  induction rest generalizing e with
  | nil => simp [serializeObj, List.intercalate, List.intersperse]
  | cons w rest ih =>
    have h := ih w
    obtain ⟨k, v⟩ := w
    simp only [List.intercalate, List.map_cons] at h
    simp only [serializeObj, List.intercalate, List.map_cons, List.intersperse, List.flatten]
    simp only [Bool.false_eq_true, if_false, List.append_assoc]
    rw [← h]
    simp [renderEntry, commaSpace]

/-- C6: the serialization of an object is `{`, then its entries in iteration
order, each rendered as `"key": value`, joined by `", "`, then `}`. A map filled
by insertions holds exactly the inserted entries (distinct keys) in strictly
ascending lexicographic key order, so inserting the same entries in another
order gives the same map and the same text; the map built from `b: 2` then
`a: 1` serializes to `{"a": 1, "b": 2}`. -/
theorem serialize_object (fmt : JDouble → List Char) (obj : JsonObject)
    (entries entries' : List (List Char × JsonValue))
    (hperm : entries.Perm entries') (hnodup : (entries.map Prod.fst).Nodup) :
    serialize fmt (.object obj)
      = "\x7b".toList ++ ", ".toList.intercalate (obj.map (renderEntry fmt)) ++ "\x7d".toList ∧
    (mapOfList entries).Perm entries ∧
    ((mapOfList entries).map Prod.fst).Sorted (· < ·) ∧
    mapOfList entries' = mapOfList entries ∧
    serialize fmt (.object (mapOfList entries')) = serialize fmt (.object (mapOfList entries)) ∧
    serialize fmt (.object (mapOfList [("b".toList, .int 2), ("a".toList, .int 1)]))
      = "\x7b\"a\": 1, \"b\": 2\x7d".toList := by
  have heq := mapOfList_perm_eq entries entries' hperm hnodup
  refine ⟨?_, ?_, ?_, heq, by rw [heq], rfl⟩
  · cases obj with
    | nil => rfl
    | cons e rest =>
      have h := serializeObj_rest fmt rest e
      obtain ⟨k, v⟩ := e
      simp only [serialize, serializeObj, if_true, List.nil_append]
      simp only [renderEntry] at h
      rw [h]
      rfl
  · have h := foldl_mapInsert_perm entries [] hnodup (fun x _ h => List.not_mem_nil x h)
    simpa [mapOfList] using h
  · exact foldl_mapInsert_sorted entries [] List.sorted_nil

/-- Witness for `serialize_object`: the entries `b: 2`, `a: 1` in both orders. -/
theorem serialize_object_witness :
    [("b".toList, JsonValue.int 2), ("a".toList, JsonValue.int 1)].Perm
      [("a".toList, JsonValue.int 1), ("b".toList, JsonValue.int 2)] ∧
    ([("b".toList, JsonValue.int 2), ("a".toList, JsonValue.int 1)].map Prod.fst).Nodup ∧
    serialize (fun d => d.src)
        (.object (mapOfList [("a".toList, .int 1), ("b".toList, .int 2)]))
      = serialize (fun d => d.src)
        (.object (mapOfList [("b".toList, .int 2), ("a".toList, .int 1)])) :=
  ⟨List.Perm.swap _ _ _, by decide,
    (serialize_object (fun d => d.src) []
      [("b".toList, .int 2), ("a".toList, .int 1)] [("a".toList, .int 1), ("b".toList, .int 2)]
      (List.Perm.swap _ _ _) (by decide)).2.2.2.2.1⟩

/-! ## C7: serializing arrays -/

theorem serializeArr_rest (fmt : JDouble → List Char) (rest : List JsonValue) (v : JsonValue) :
    serialize fmt v ++ serializeArr fmt rest false
      = commaSpace.intercalate ((v :: rest).map (serialize fmt)) := by
  induction rest generalizing v with
  | nil => simp [serializeArr, List.intercalate, List.intersperse]
  | cons w rest ih =>
    have h := ih w
    simp only [List.intercalate, List.map_cons] at h
    simp only [serializeArr, List.intercalate, List.map_cons, List.intersperse, List.flatten]
    simp only [Bool.false_eq_true, if_false, List.append_assoc]
    rw [h]
    rfl

/-- C7: the serialization of an array is `[`, then the serializations of its
elements in sequence order joined by `", "`, then `]`; the empty array gives
`[]` and a one-element array has no separator. -/
theorem serialize_array (fmt : JDouble → List Char) (arr : List JsonValue) :
    serialize fmt (.array arr)
      = "[".toList ++ ", ".toList.intercalate (arr.map (serialize fmt)) ++ "]".toList ∧
    serialize fmt (.array []) = "[]".toList ∧
    ∀ v, serialize fmt (.array [v]) = "[".toList ++ serialize fmt v ++ "]".toList := by
  refine ⟨?_, rfl, ?_⟩
  · cases arr with
    | nil => rfl
    | cons v rest =>
      have h := serializeArr_rest fmt rest v
      simp only [serialize, serializeArr, if_true, List.nil_append]
      rw [h]
      rfl
  · intro v
    simp [serialize, serializeArr]

/-! ## C8: lenient literals -/

theorem parseAt_t (json beyond : List Char) (fuel pos : Nat) (hpos : pos < json.length)
    (hc : charAt json beyond pos = .ok 't') :
    parseAt json beyond (fuel + 1) pos = .ok (.bool true, pos + 1) := by
  rw [parseAt]
  simp only [isEmpty_of_lt json pos hpos, hc, Bool.false_or, decide_eq_true_eq, ge_iff_le,
    Nat.not_le.mpr hpos, if_false, bind, Except.bind]
  rfl

theorem parseAt_f (json beyond : List Char) (fuel pos : Nat) (hpos : pos < json.length)
    (hc : charAt json beyond pos = .ok 'f') :
    parseAt json beyond (fuel + 1) pos = .ok (.bool false, pos + 1) := by
  rw [parseAt]
  simp only [isEmpty_of_lt json pos hpos, hc, Bool.false_or, decide_eq_true_eq, ge_iff_le,
    Nat.not_le.mpr hpos, if_false, bind, Except.bind]
  rfl

theorem parseAt_n (json beyond : List Char) (fuel pos : Nat) (hpos : pos < json.length)
    (hc : charAt json beyond pos = .ok 'n') :
    parseAt json beyond (fuel + 1) pos = .ok (.null, pos + 1) := by
  rw [parseAt]
  simp only [isEmpty_of_lt json pos hpos, hc, Bool.false_or, decide_eq_true_eq, ge_iff_le,
    Nat.not_le.mpr hpos, if_false, bind, Except.bind]
  rfl

/-- C8: a text that starts with `t`, `f` or `n` parses to true, false or null
whatever follows and whatever lies beyond it (`true`, `false`, `null` and `nuXX`
among them); the cursor-level parser at such a character returns the same value
and leaves the cursor one further. -/
theorem parse_literal_lenient (pre rest beyond : List Char) :
    parse ('t' :: rest) beyond = .ok (.bool true) ∧
    parse ('f' :: rest) beyond = .ok (.bool false) ∧
    parse ('n' :: rest) beyond = .ok .null ∧
    parsePos (pre ++ 't' :: rest) beyond pre.length = .ok (.bool true, pre.length + 1) ∧
    parsePos (pre ++ 'f' :: rest) beyond pre.length = .ok (.bool false, pre.length + 1) ∧
    parsePos (pre ++ 'n' :: rest) beyond pre.length = .ok (.null, pre.length + 1) ∧
    parse "true".toList beyond = .ok (.bool true) ∧
    parse "false".toList beyond = .ok (.bool false) ∧
    parse "null".toList beyond = .ok .null ∧
    parse "nuXX".toList beyond = .ok .null :=
  ⟨rfl, rfl, rfl,
    parseAt_t _ beyond _ _ (length_append_cons_gt pre rest 't') (charAt_append_cons pre rest beyond 't'),
    parseAt_f _ beyond _ _ (length_append_cons_gt pre rest 'f') (charAt_append_cons pre rest beyond 'f'),
    parseAt_n _ beyond _ _ (length_append_cons_gt pre rest 'n') (charAt_append_cons pre rest beyond 'n'),
    rfl, rfl, rfl, rfl⟩

/-! ## C9: empty containers -/

theorem objLoop_close (beyond pre w rest : List Char)
    (value : Nat → Except Err (JsonValue × Nat)) (n : Nat) (obj : JsonObject)
    (hw : ∀ c ∈ w, isWs c = true) :
    objLoop (pre ++ w ++ '}' :: rest) beyond value (n + 1) pre.length obj
      = .ok (.object obj, if w = [] then pre.length else pre.length + w.length + 1) := by
  have hlen : pre.length < (pre ++ w ++ '}' :: rest).length := by simp
  rw [objLoop]
  cases w with
  | nil =>
    have hc := charAt_append_cons pre rest beyond '}'
    simp only [List.append_nil] at hlen ⊢
    simp only [hlen, if_true, hc, bind, Except.bind]
    rfl
  | cons c w =>
    have hc : isWs c = true := hw c (List.mem_cons_self _ _)
    have h1 : charAt (pre ++ c :: w ++ '}' :: rest) beyond pre.length = .ok c := by
      have := charAt_append_cons pre (w ++ '}' :: rest) beyond c
      simpa using this
    have h2 : skipWhitespace (pre ++ c :: w ++ '}' :: rest) pre.length
        = pre.length + (c :: w).length :=
      skipWhitespace_run pre (c :: w) rest '}' hw rfl
    have h3 : charAt (pre ++ c :: w ++ '}' :: rest) beyond (pre.length + (c :: w).length)
        = .ok '}' := by
      have := charAt_append_cons (pre ++ c :: w) rest beyond '}'
      simpa using this
    have hne : (c == '}') = false := by
      by_contra hcon
      simp only [Bool.not_eq_false, beq_iff_eq] at hcon
      rw [hcon] at hc
      exact absurd hc (by decide)
    simp only [hlen, if_true, h1, h2, h3, hne, bind, Except.bind]
    rfl

theorem arrLoop_close (beyond pre w rest : List Char)
    (value : Nat → Except Err (JsonValue × Nat)) (n : Nat) (arr : JsonArray)
    (hw : ∀ c ∈ w, isWs c = true) :
    arrLoop (pre ++ w ++ ']' :: rest) beyond value (n + 1) pre.length arr
      = .ok (.array arr, if w = [] then pre.length else pre.length + w.length + 1) := by
  have hlen : pre.length < (pre ++ w ++ ']' :: rest).length := by simp
  rw [arrLoop]
  cases w with
  | nil =>
    have hc := charAt_append_cons pre rest beyond ']'
    simp only [List.append_nil] at hlen ⊢
    simp only [hlen, if_true, hc, bind, Except.bind]
    rfl
  | cons c w =>
    have hc : isWs c = true := hw c (List.mem_cons_self _ _)
    have h1 : charAt (pre ++ c :: w ++ ']' :: rest) beyond pre.length = .ok c := by
      have := charAt_append_cons pre (w ++ ']' :: rest) beyond c
      simpa using this
    have h2 : skipWhitespace (pre ++ c :: w ++ ']' :: rest) pre.length
        = pre.length + (c :: w).length :=
      skipWhitespace_run pre (c :: w) rest ']' hw rfl
    have h3 : charAt (pre ++ c :: w ++ ']' :: rest) beyond (pre.length + (c :: w).length)
        = .ok ']' := by
      have := charAt_append_cons (pre ++ c :: w) rest beyond ']'
      simpa using this
    have hne : (c == ']') = false := by
      by_contra hcon
      simp only [Bool.not_eq_false, beq_iff_eq] at hcon
      rw [hcon] at hc
      exact absurd hc (by decide)
    simp only [hlen, if_true, h1, h2, h3, hne, bind, Except.bind]
    rfl

/-- C9: for every run `w` of whitespace characters (space, newline, carriage
return, tab; possibly empty) the text `{` + `w` + `}` parses to the empty object
and `[` + `w` + `]` to the empty array, whatever lies beyond the text; `{}` and
`[]` are the case of the empty run. -/
theorem parse_empty_containers (w beyond : List Char) (hw : ∀ c ∈ w, isWs c = true) :
    parse ("\x7b".toList ++ w ++ "\x7d".toList) beyond = .ok (.object []) ∧
    parse ("[".toList ++ w ++ "]".toList) beyond = .ok (.array []) ∧
    parse "\x7b\x7d".toList beyond = .ok (.object []) ∧
    parse "[]".toList beyond = .ok (.array []) := by
  refine ⟨?_, ?_, rfl, rfl⟩
  · have hobj : objLoop (['{'] ++ w ++ ['}']) beyond (parsePos (['{'] ++ w ++ ['}']) beyond)
        ((['{'] ++ w ++ ['}']).length + 1) 1 []
        = .ok (.object [], if w = [] then 1 else 1 + w.length + 1) :=
      objLoop_close beyond ['{'] w [] _ _ [] hw
    have hc : charAt (['{'] ++ w ++ ['}']) beyond 0 = .ok '{' := rfl
    have hne : (['{'] ++ w ++ ['}']).isEmpty = false := rfl
    show parse (['{'] ++ w ++ ['}']) beyond = _
    unfold parse
    simp only [hne, hc, hobj, bind, Except.bind]
    rfl
  · have harr : arrLoop (['['] ++ w ++ [']']) beyond (parsePos (['['] ++ w ++ [']']) beyond)
        ((['['] ++ w ++ [']']).length + 1) 1 []
        = .ok (.array [], if w = [] then 1 else 1 + w.length + 1) :=
      arrLoop_close beyond ['['] w [] _ _ [] hw
    have hc : charAt (['['] ++ w ++ [']']) beyond 0 = .ok '[' := rfl
    have hne : (['['] ++ w ++ [']']).isEmpty = false := rfl
    show parse (['['] ++ w ++ [']']) beyond = _
    unfold parse
    simp only [hne, hc, harr, bind, Except.bind]
    rfl

/-- Witness for `parse_empty_containers`: a space and a newline between the brackets. -/
theorem parse_empty_containers_witness :
    (∀ c ∈ [' ', '\n'], isWs c = true) ∧
    parse "\x7b \n\x7d".toList [] = .ok (.object []) ∧
    parse "[ \n]".toList [] = .ok (.array []) :=
  ⟨by decide, (parse_empty_containers [' ', '\n'] [] (by decide)).1,
    (parse_empty_containers [' ', '\n'] [] (by decide)).2.1⟩

/-! ## C10: unterminated strings -/

/-- C10, the code at the failing input of the single character `"`: the scan
starts at index 2 and reads `json[2]` although the text has length 1. With
nothing readable there the read is a fault, not the invalid-argument error;
with the two characters NUL and `"` beyond the text the scan stops on that
quote and the empty string is returned. On `"abc` the error is thrown. -/
theorem parse_lone_quote_reads_past_end :
    parse "\"".toList [] = .error .fault ∧
    parse "\"".toList ['\x00', '"'] = .ok (.string []) ∧
    parse "\"a".toList [] = .error .fault ∧
    parse "\"abc".toList [] = .error (.invalidArgument "Invalid JSON string") :=
  ⟨rfl, rfl, rfl, rfl⟩

/-- The whole-document string branch on a text of three or more characters
with no quote from index 2 on: the error "Invalid JSON string", whatever lies
beyond the text. -/
theorem parse_unterminated_throws (a b : Char) (s beyond : List Char)
    (hb : b ≠ '"') (hs : ∀ c ∈ s, c ≠ '"') :
    parse ('"' :: a :: b :: s) beyond = .error (.invalidArgument "Invalid JSON string") := by
  have hscan : strScanDoc ('"' :: a :: b :: s) beyond (('"' :: a :: b :: s).length + 1) 2
      = .error invalidJson :=
    strScanDoc_unterminated beyond (b :: s) ['"', a] _
      (by
        intro c hc
        rcases List.mem_cons.mp hc with h | h
        · rw [h]; exact hb
        · exact hs c h)
      (by simp) (by simp)
  have hc : charAt ('"' :: a :: b :: s) beyond 0 = .ok '"' := rfl
  have hne : ('"' :: a :: b :: s).isEmpty = false := rfl
  unfold parse
  simp only [hne, hc, hscan, bind, Except.bind]
  rfl

/-! ## Unfolding the cursor-level parser at an opening bracket -/

theorem parseAt_obj (json beyond : List Char) (fuel pos : Nat) (hpos : pos < json.length)
    (hc : charAt json beyond pos = .ok '{') :
    parseAt json beyond (fuel + 1) pos
      = objLoop json beyond (parseAt json beyond fuel) (json.length + 1) (pos + 1) [] := by
  rw [parseAt]
  simp only [isEmpty_of_lt json pos hpos, hc, Bool.false_or, decide_eq_true_eq, ge_iff_le,
    Nat.not_le.mpr hpos, if_false, bind, Except.bind]
  rfl

theorem parseAt_arr (json beyond : List Char) (fuel pos : Nat) (hpos : pos < json.length)
    (hc : charAt json beyond pos = .ok '[') :
    parseAt json beyond (fuel + 1) pos
      = arrLoop json beyond (parseAt json beyond fuel) (json.length + 1) (pos + 1) [] := by
  rw [parseAt]
  simp only [isEmpty_of_lt json pos hpos, hc, Bool.false_or, decide_eq_true_eq, ge_iff_le,
    Nat.not_le.mpr hpos, if_false, bind, Except.bind]
  rfl

/-! ## C11: unquoted keys -/

theorem objLoop_unquoted (beyond pre w rest : List Char) (d : Char)
    (value : Nat → Except Err (JsonValue × Nat)) (n : Nat) (obj : JsonObject)
    (hw : ∀ c ∈ w, isWs c = true) (hd : isWs d = false) (hq : d ≠ '"') (hb : d ≠ '}') :
    objLoop (pre ++ w ++ d :: rest) beyond value (n + 1) pre.length obj
      = .error invalidJson := by
  have hlen : pre.length < (pre ++ w ++ d :: rest).length := by simp
  have h2 : skipWhitespace (pre ++ w ++ d :: rest) pre.length = pre.length + w.length :=
    skipWhitespace_run pre w rest d hw hd
  have h3 : charAt (pre ++ w ++ d :: rest) beyond (pre.length + w.length) = .ok d := by
    have := charAt_append_cons (pre ++ w) rest beyond d
    simpa using this
  have hdb : (d == '}') = false := by simpa using hb
  have hdq : (d != '"') = true := by simpa using hq
  have h1 : ∃ c, charAt (pre ++ w ++ d :: rest) beyond pre.length = .ok c ∧ (c == '}') = false := by
    cases w with
    | nil =>
      refine ⟨d, ?_, hdb⟩
      simpa using h3
    | cons c w =>
      refine ⟨c, ?_, ?_⟩
      · have := charAt_append_cons pre (w ++ d :: rest) beyond c
        simpa using this
      · have hc : isWs c = true := hw c (List.mem_cons_self _ _)
        by_contra hcon
        simp only [Bool.not_eq_false, beq_iff_eq] at hcon
        rw [hcon] at hc
        exact absurd hc (by decide)
  obtain ⟨c, hc1, hc2⟩ := h1
  rw [objLoop]
  simp only [hlen, if_true, hc1, hc2, h2, h3, hdb, hdq, bind, Except.bind, Bool.false_eq_true,
    if_false]

/-- C11: a text that starts with `{`, then a (possibly empty) run of whitespace
and then a character that is neither whitespace nor `"` nor `}` makes the
whole-document parser fail with invalid_argument "Invalid JSON string", whatever
follows and whatever lies beyond the text; the cursor-level parser fails the
same way when such a text starts at the cursor; `{a:1}` is an instance. -/
theorem parse_unquoted_key (pre w rest beyond : List Char) (d : Char)
    (hw : ∀ c ∈ w, isWs c = true) (hd : isWs d = false) (hq : d ≠ '"') (hb : d ≠ '}') :
    parse ("\x7b".toList ++ w ++ d :: rest) beyond
      = .error (.invalidArgument "Invalid JSON string") ∧
    parsePos (pre ++ "\x7b".toList ++ w ++ d :: rest) beyond pre.length
      = .error (.invalidArgument "Invalid JSON string") ∧
    parse "\x7ba:1\x7d".toList beyond = .error (.invalidArgument "Invalid JSON string") := by
  refine ⟨?_, ?_, rfl⟩
  · have hobj := objLoop_unquoted beyond ['{'] w rest d
      (parsePos (['{'] ++ w ++ d :: rest) beyond) (['{'] ++ w ++ d :: rest).length [] hw hd hq hb
    have hc : charAt (['{'] ++ w ++ d :: rest) beyond 0 = .ok '{' := rfl
    have hne : (['{'] ++ w ++ d :: rest).isEmpty = false := rfl
    show parse (['{'] ++ w ++ d :: rest) beyond = _
    unfold parse
    have hobj2 : objLoop (['{'] ++ w ++ d :: rest) beyond (parsePos (['{'] ++ w ++ d :: rest) beyond)
        ((['{'] ++ w ++ d :: rest).length + 1) 1 [] = .error invalidJson := hobj
    simp only [hne, hc, hobj2, bind, Except.bind]
    rfl
  · have hobj := objLoop_unquoted beyond (pre ++ ['{']) w rest d
      (parseAt (pre ++ ['{'] ++ w ++ d :: rest) beyond (pre ++ ['{'] ++ w ++ d :: rest).length)
      (pre ++ ['{'] ++ w ++ d :: rest).length [] hw hd hq hb
    have hc : charAt (pre ++ ['{'] ++ w ++ d :: rest) beyond pre.length = .ok '{' := by
      have := charAt_append_cons pre (w ++ d :: rest) beyond '{'
      simpa using this
    have hlen : pre.length < (pre ++ ['{'] ++ w ++ d :: rest).length := by simp
    show parsePos (pre ++ ['{'] ++ w ++ d :: rest) beyond pre.length = _
    unfold parsePos
    rw [parseAt_obj _ _ _ _ hlen hc]
    rwa [show (pre ++ ['{']).length = pre.length + 1 by simp] at hobj

/-- Witness for `parse_unquoted_key`: the text `{ a:1}` after the prefix `x`. -/
theorem parse_unquoted_key_witness :
    (∀ c ∈ [' '], isWs c = true) ∧ isWs 'a' = false ∧ 'a' ≠ '"' ∧ 'a' ≠ '}' ∧
    parse "\x7b a:1\x7d".toList [] = .error (.invalidArgument "Invalid JSON string") ∧
    parsePos "x\x7b a:1\x7d".toList [] 1 = .error (.invalidArgument "Invalid JSON string") :=
  ⟨by decide, by decide, by decide, by decide,
    (parse_unquoted_key ['x'] [' '] ":1\x7d".toList [] 'a' (by decide) (by decide) (by decide)
      (by decide)).1,
    (parse_unquoted_key ['x'] [' '] ":1\x7d".toList [] 'a' (by decide) (by decide) (by decide)
      (by decide)).2.1⟩

/-! ## C13: the fallback branch -/

/-- C13, the code at the failing input ` true` (a space, then `true`): the
whole-document parser starts with `pos = 1` and calls `parse(json, ++pos)`, so it
parses from cursor 2, skipping the space and the `t`: over `rue` it falls
through to the end and returns null. Parsing the same text from cursor 1
returns true, and the cursor-level parser started at 0 skips exactly one
character. A text of one such character gives null. -/
theorem parse_fallback_skips_two :
    parse " true".toList [] = .ok .null ∧
    parsePos " true".toList [] 1 = .ok (.bool true, 2) ∧
    parsePos " true".toList [] 2 = .ok (.null, 5) ∧
    parsePos " true".toList [] 0 = .ok (.bool true, 2) ∧
    parse " ".toList [] = .ok .null :=
  ⟨rfl, rfl, rfl, rfl, rfl⟩

/-! ## C14: int or double -/

/-- C14, the code at the failing input `1.5,`: the whole-document number scan
starts at `pos = 1` and tests `json[pos]` for `.` and `e` only after `pos++`, so
the character at index 1 is never tested: `1.5,` and `1e5,` come back as the
int 1 (kind 2) although a `.` or `e` stands before the first separator. The
cursor-level parser at 0 does test index 1 and returns kind 3; so does the
whole-document parser when the `.` stands at index 2. -/
theorem parse_misses_point_at_index_one :
    parse "1.5,".toList [] = .ok (.int 1) ∧
    parse "1e5,".toList [] = .ok (.int 1) ∧
    (parse "1.5,".toList []).map JsonValue.type = .ok 2 ∧
    (parsePos "1.5,".toList [] 0).map (fun r => r.1.type) = .ok 3 ∧
    (parse "12.5,".toList []).map JsonValue.type = .ok 3 ∧
    (parse "12,".toList []).map JsonValue.type = .ok 2 :=
  ⟨rfl, rfl, rfl, rfl, rfl, rfl⟩

/-! ## C15: the cursor after an empty container -/

/-- C15, the code at the failing input `[]` with cursor 0 (and `{}`): the loop
condition `json[pos] != ']'` ends the loop without `pos++`, so the cursor is
left at `p + 1`, on the closing bracket, not at `p + 2`. With a space between
the brackets the closer is consumed inside the loop and the cursor ends after
it, at `p + 3`. -/
theorem parsePos_empty_container_cursor :
    parsePos "[]".toList [] 0 = .ok (.array [], 1) ∧
    parsePos "\x7b\x7d".toList [] 0 = .ok (.object [], 1) ∧
    parsePos "x[]y".toList [] 1 = .ok (.array [], 2) ∧
    parsePos "[ ]".toList [] 0 = .ok (.array [], 3) ∧
    parsePos "\x7b \x7d".toList [] 0 = .ok (.object [], 3) :=
  ⟨rfl, rfl, rfl, rfl, rfl⟩

/-- The cursor-level parser on an empty container at any cursor: with nothing
between the brackets the cursor is left on the closing bracket, with a run of
whitespace between them it is left after the closing bracket. -/
theorem parsePos_empty_container (pre w rest beyond : List Char)
    (hw : ∀ c ∈ w, isWs c = true) :
    parsePos (pre ++ ['['] ++ w ++ ']' :: rest) beyond pre.length
      = .ok (.array [], if w = [] then pre.length + 1 else pre.length + 1 + w.length + 1) ∧
    parsePos (pre ++ ['{'] ++ w ++ '}' :: rest) beyond pre.length
      = .ok (.object [], if w = [] then pre.length + 1 else pre.length + 1 + w.length + 1) := by
  constructor
  · have hl := arrLoop_close beyond (pre ++ ['[']) w rest
      (parseAt (pre ++ ['['] ++ w ++ ']' :: rest) beyond (pre ++ ['['] ++ w ++ ']' :: rest).length)
      (pre ++ ['['] ++ w ++ ']' :: rest).length [] hw
    have hc : charAt (pre ++ ['['] ++ w ++ ']' :: rest) beyond pre.length = .ok '[' := by
      have := charAt_append_cons pre (w ++ ']' :: rest) beyond '['
      simpa using this
    have hlen : pre.length < (pre ++ ['['] ++ w ++ ']' :: rest).length := by simp
    unfold parsePos
    rw [parseAt_arr _ _ _ _ hlen hc]
    rwa [show (pre ++ ['[']).length = pre.length + 1 by simp] at hl
  · have hl := objLoop_close beyond (pre ++ ['{']) w rest
      (parseAt (pre ++ ['{'] ++ w ++ '}' :: rest) beyond (pre ++ ['{'] ++ w ++ '}' :: rest).length)
      (pre ++ ['{'] ++ w ++ '}' :: rest).length [] hw
    have hc : charAt (pre ++ ['{'] ++ w ++ '}' :: rest) beyond pre.length = .ok '{' := by
      have := charAt_append_cons pre (w ++ '}' :: rest) beyond '{'
      simpa using this
    have hlen : pre.length < (pre ++ ['{'] ++ w ++ '}' :: rest).length := by simp
    unfold parsePos
    rw [parseAt_obj _ _ _ _ hlen hc]
    rwa [show (pre ++ ['{']).length = pre.length + 1 by simp] at hl

/-! ## C16, C19: the number scan and reads past the text -/

/-- C16, the code at the failing input `5` with cursor 0: there is no separator,
and after `pos++` the scan reads `json[1]` although the text has length 1. With
nothing readable there the call ends in that read; with a NUL there it returns
the int 5 and leaves the cursor at the text length. When a separator follows,
the cursor is left on it, and `]` and space do not stop the scan. -/
theorem parsePos_number_reads_past_end :
    parsePos "5".toList [] 0 = .error .fault ∧
    parsePos "5".toList nul 0 = .ok (.int 5, 1) ∧
    parsePos "5,".toList [] 0 = .ok (.int 5, 1) ∧
    parsePos "12] ,x".toList [] 0 = .ok (.int 12, 4) :=
  ⟨rfl, rfl, rfl, rfl⟩

/-- C19, the code at the failing inputs `12` and `[1]`: with nothing readable
beyond the text (indexing answers out of range as a fault) both parsers reach
the out-of-range case. The number scan reads `json[pos]` after `pos++` without
a bounds check and so reads index 2 of `12`; on `[1]` the scan runs over `]` and
reads index 3. The cursor-level string scan reads `json[4]` of the unterminated
`"abc` before its end-of-input test. -/
theorem parse_reads_out_of_range :
    parse "12".toList [] = .error .fault ∧
    parsePos "12".toList [] 0 = .error .fault ∧
    parse "[1]".toList [] = .error .fault ∧
    parsePos "[1]".toList [] 0 = .error .fault ∧
    parsePos "\"abc".toList [] 0 = .error .fault ∧
    charAt "12".toList [] 2 = .error .fault :=
  ⟨rfl, rfl, rfl, rfl, rfl, rfl⟩

/-! ## Strings at the cursor -/

theorem charAt_of_eq (json beyond a b : List Char) (c : Char) (p : Nat)
    (h : json = a ++ c :: b) (hp : p = a.length) : charAt json beyond p = .ok c := by
  rw [h, hp]
  exact charAt_append_cons a b beyond c

theorem skipWhitespace_of_eq (json a w b : List Char) (d : Char) (p : Nat)
    (h : json = a ++ (w ++ d :: b)) (hp : p = a.length)
    (hw : ∀ c ∈ w, isWs c = true) (hd : isWs d = false) :
    skipWhitespace json p = p + w.length := by
  rw [h, hp, ← List.append_assoc]
  exact skipWhitespace_run a w b d hw hd

theorem noQuote_mem (s : List Char) (h : noQuote s = true) : ∀ c ∈ s, c ≠ '"' := by
  intro c hc
  have := List.all_eq_true.mp h c hc
  simpa using this

theorem strScanAt_found (beyond rest mid pre : List Char) (n : Nat)
    (hmid : ∀ c ∈ mid, c ≠ '"') (hn : mid.length < n) :
    strScanAt (pre ++ mid ++ '"' :: rest) beyond n pre.length
      = .ok (pre.length + mid.length) := by
  induction mid generalizing pre n with
  | nil =>
    obtain ⟨m, rfl⟩ : ∃ m, n = m + 1 := ⟨n - 1, by simp at hn; omega⟩
    have hc := charAt_append_cons pre rest beyond '"'
    rw [strScanAt]
    simp only [List.append_nil, hc, bind, Except.bind]
    rfl
  | cons c mid ih =>
    obtain ⟨m, rfl⟩ : ∃ m, n = m + 1 := ⟨n - 1, by simp at hn; omega⟩
    have hc : charAt (pre ++ c :: mid ++ '"' :: rest) beyond pre.length = .ok c := by
      have := charAt_append_cons pre (mid ++ '"' :: rest) beyond c
      simpa using this
    have hne : (c == '"') = false := by
      simpa using hmid c (List.mem_cons_self _ _)
    have hlen : ¬ (pre.length ≥ (pre ++ c :: mid ++ '"' :: rest).length) := by
      simp
    have hrec := ih (pre ++ [c]) m (fun x hx => hmid x (List.mem_cons_of_mem _ hx))
      (by simp at hn; omega)
    simp only [List.append_assoc, List.singleton_append, List.length_append,
      List.length_singleton] at hrec
    rw [strScanAt]
    simp only [hc, hne, hlen, bind, Except.bind, if_false, Bool.false_eq_true]
    simp only [List.append_assoc, List.cons_append, List.length_cons] at hrec ⊢
    rw [hrec]
    congr 1
    omega

/-- The cursor-level string branch: at the opening quote of a quoted text
without inner quotes the parser returns the text between the quotes and leaves
the cursor after the closing quote. -/
theorem parseAt_string (json beyond pre s rest : List Char) (fuel p : Nat)
    (hjson : json = pre ++ (quoted s ++ rest)) (hp : p = pre.length)
    (hs : noQuote s = true) :
    parseAt json beyond (fuel + 1) p = .ok (.string s, p + s.length + 2) := by
  have hj2 : json = (pre ++ ['"']) ++ s ++ '"' :: rest := by
    rw [hjson]; simp [quoted]
  have hc : charAt json beyond p = .ok '"' :=
    charAt_of_eq json beyond pre (s ++ '"' :: rest) '"' p (by rw [hjson]; simp [quoted]) hp
  have hlen : json.length = pre.length + s.length + 2 + rest.length := by
    rw [hjson]; simp [quoted]; omega
  have hpos : p < json.length := by omega
  have hscan : strScanAt json beyond (json.length + 2) (p + 1) = .ok (p + 1 + s.length) := by
    have := strScanAt_found beyond rest s (pre ++ ['"']) (json.length + 2) (noQuote_mem s hs)
      (by omega)
    rw [← hj2] at this
    simpa [hp] using this
  have hsub : substr json (p + 1) (szSub (szSub (p + 1 + s.length + 1) (p + 1)) 1) = .ok s := by
    have h1 : szSub (szSub (p + 1 + s.length + 1) (p + 1)) 1 = s.length := by
      have ha : szSub (p + 1 + s.length + 1) (p + 1) = s.length + 1 := by
        unfold szSub
        have hle : p + 1 ≤ p + 1 + s.length + 1 := by omega
        rw [if_pos hle]
        omega
      rw [ha]
      unfold szSub
      have hle : 1 ≤ s.length + 1 := by omega
      rw [if_pos hle]
      omega
    rw [h1]
    unfold substr
    have hgt : ¬ (p + 1 > json.length) := by omega
    rw [if_neg hgt]
    have : List.drop (p + 1) json = s ++ '"' :: rest := by
      rw [hj2, hp, List.append_assoc]
      have : (pre ++ ['"']).length = pre.length + 1 := by simp
      rw [← this, List.drop_left]
    rw [this, List.take_left]
  rw [parseAt]
  simp only [isEmpty_of_lt json p hpos, hc, Bool.false_or, decide_eq_true_eq, ge_iff_le,
    Nat.not_le.mpr hpos, if_false, bind, Except.bind, hscan, hsub]
  simp only [show p + s.length + 2 = p + 1 + s.length + 1 by omega]
  rfl

/-! ## The array loop over quoted strings -/

theorem charAt_ws_or (json beyond a w b : List Char) (d : Char) (p : Nat)
    (h : json = a ++ (w ++ d :: b)) (hp : p = a.length) (hw : ∀ c ∈ w, isWs c = true) :
    ∃ c, charAt json beyond p = .ok c ∧ (isWs c = true ∨ c = d) := by
  cases w with
  | nil => exact ⟨d, charAt_of_eq json beyond a b d p (by simpa using h) hp, Or.inr rfl⟩
  | cons c w =>
    exact ⟨c, charAt_of_eq json beyond a (w ++ d :: b) c p (by simpa using h) hp,
      Or.inl (hw c (List.mem_cons_self _ _))⟩

theorem arrLoop_string_comma (json beyond pre w s rest : List Char) (fuel n p : Nat)
    (arr : JsonArray)
    (hjson : json = pre ++ (w ++ (quoted s ++ ',' :: rest))) (hp : p = pre.length)
    (hw : ∀ c ∈ w, isWs c = true) (hs : noQuote s = true) :
    arrLoop json beyond (parseAt json beyond (fuel + 1)) (n + 1) p arr
      = arrLoop json beyond (parseAt json beyond (fuel + 1)) n (p + w.length + s.length + 3)
          (arr ++ [.string s]) := by
  have hlen : p < json.length := by rw [hjson, hp]; simp [quoted]
  have hj1 : json = pre ++ (w ++ '"' :: (s ++ '"' :: ',' :: rest)) := by
    rw [hjson]; simp [quoted]
  obtain ⟨c, hc1, hc2⟩ := charAt_ws_or json beyond pre w _ '"' p hj1 hp hw
  have hcb : (c == ']') = false := by
    rcases hc2 with h | h
    · by_contra hcon
      simp only [Bool.not_eq_false, beq_iff_eq] at hcon
      rw [hcon] at h
      exact absurd h (by decide)
    · rw [h]; rfl
  have h2 : skipWhitespace json p = p + w.length :=
    skipWhitespace_of_eq json pre w _ '"' p hj1 hp hw rfl
  have h3 : charAt json beyond (p + w.length) = .ok '"' :=
    charAt_of_eq json beyond (pre ++ w) (s ++ '"' :: ',' :: rest) '"' (p + w.length)
      (by rw [hj1]; simp) (by simp [hp])
  have h4 : parseAt json beyond (fuel + 1) (p + w.length)
      = .ok (.string s, p + w.length + s.length + 2) :=
    parseAt_string json beyond (pre ++ w) s (',' :: rest) fuel (p + w.length)
      (by rw [hjson]; simp) (by simp [hp]) hs
  have h5 : charAt json beyond (p + w.length + s.length + 2) = .ok ',' :=
    charAt_of_eq json beyond (pre ++ w ++ quoted s) rest ',' (p + w.length + s.length + 2)
      (by rw [hjson]; simp) (by simp [hp, quoted]; omega)
  rw [arrLoop]
  simp only [hlen, if_true, hc1, hcb, h2, h3, h4, h5, bind, Except.bind, Bool.false_eq_true,
    if_false]
  rfl

theorem arrLoop_string_close (json beyond pre w s rest : List Char) (fuel n p : Nat)
    (arr : JsonArray)
    (hjson : json = pre ++ (w ++ (quoted s ++ ']' :: rest))) (hp : p = pre.length)
    (hw : ∀ c ∈ w, isWs c = true) (hs : noQuote s = true) :
    arrLoop json beyond (parseAt json beyond (fuel + 1)) (n + 1) p arr
      = .ok (.array (arr ++ [.string s]), p + w.length + s.length + 3) := by
  have hlen : p < json.length := by rw [hjson, hp]; simp [quoted]
  have hj1 : json = pre ++ (w ++ '"' :: (s ++ '"' :: ']' :: rest)) := by
    rw [hjson]; simp [quoted]
  obtain ⟨c, hc1, hc2⟩ := charAt_ws_or json beyond pre w _ '"' p hj1 hp hw
  have hcb : (c == ']') = false := by
    rcases hc2 with h | h
    · by_contra hcon
      simp only [Bool.not_eq_false, beq_iff_eq] at hcon
      rw [hcon] at h
      exact absurd h (by decide)
    · rw [h]; rfl
  have h2 : skipWhitespace json p = p + w.length :=
    skipWhitespace_of_eq json pre w _ '"' p hj1 hp hw rfl
  have h3 : charAt json beyond (p + w.length) = .ok '"' :=
    charAt_of_eq json beyond (pre ++ w) (s ++ '"' :: ']' :: rest) '"' (p + w.length)
      (by rw [hj1]; simp) (by simp [hp])
  have h4 : parseAt json beyond (fuel + 1) (p + w.length)
      = .ok (.string s, p + w.length + s.length + 2) :=
    parseAt_string json beyond (pre ++ w) s (']' :: rest) fuel (p + w.length)
      (by rw [hjson]; simp) (by simp [hp]) hs
  have h5 : charAt json beyond (p + w.length + s.length + 2) = .ok ']' :=
    charAt_of_eq json beyond (pre ++ w ++ quoted s) rest ']' (p + w.length + s.length + 2)
      (by rw [hjson]; simp) (by simp [hp, quoted]; omega)
  have h6 : skipWhitespace json (p + w.length + s.length + 2) = p + w.length + s.length + 2 :=
    skipWhitespace_of_eq json (pre ++ w ++ quoted s) [] rest ']' (p + w.length + s.length + 2)
      (by rw [hjson]; simp) (by simp [hp, quoted]; omega) (by simp) rfl
  rw [arrLoop]
  simp only [hlen, if_true, hc1, hcb, h2, h3, h4, h5, h6, bind, Except.bind, Bool.false_eq_true,
    if_false]
  rfl

theorem serializeArr_string_cons (fmt : JDouble → List Char) (s : List Char)
    (vs : List JsonValue) :
    serializeArr fmt (.string s :: vs) false
      = ',' :: ' ' :: (quoted s ++ serializeArr fmt vs false) := by
  simp [serializeArr, serialize, quoted]

theorem serializeArr_length (fmt : JDouble → List Char) (ss : List (List Char)) (b : Bool) :
    ss.length ≤ (serializeArr fmt (ss.map .string) b).length := by
  induction ss generalizing b with
  | nil => simp
  | cons s ss ih =>
    have := ih false
    have e1 : "\"".toList.length = 1 := rfl
    simp only [List.map_cons, serializeArr, serialize, List.length_append, List.length_cons]
    omega

theorem arrLoop_strings (fmt : JDouble → List Char) (beyond rest : List Char)
    (ss : List (List Char)) (json pre w s : List Char) (fuel n p : Nat) (arr : JsonArray)
    (hjson : json = pre ++ (w ++ (quoted s
      ++ (serializeArr fmt (ss.map .string) false ++ ']' :: rest))))
    (hp : p = pre.length) (hw : ∀ c ∈ w, isWs c = true) (hs : noQuote s = true)
    (hss : ∀ x ∈ ss, noQuote x = true) (hn : ss.length ≤ n) :
    ∃ q, arrLoop json beyond (parseAt json beyond (fuel + 1)) (n + 1) p arr
      = .ok (.array (arr ++ .string s :: ss.map .string), q) := by
  induction ss generalizing pre w s n p arr with
  | nil =>
    refine ⟨p + w.length + s.length + 3, ?_⟩
    have := arrLoop_string_close json beyond pre w s rest fuel n p arr
      (by simpa [serializeArr] using hjson) hp hw hs
    simpa using this
  | cons s2 ss ih =>
    obtain ⟨m, rfl⟩ : ∃ m, n = m + 1 := ⟨n - 1, by simp at hn; omega⟩
    have hj : json = pre ++ (w ++ (quoted s ++ ',' :: (' ' ::
        (quoted s2 ++ (serializeArr fmt (ss.map .string) false ++ ']' :: rest))))) := by
      rw [hjson, List.map_cons, serializeArr_string_cons]
      simp
    have hstep := arrLoop_string_comma json beyond pre w s _ fuel (m + 1) p arr hj hp hw hs
    have hrec := ih (pre ++ (w ++ (quoted s ++ [','])))  [' '] s2 m
      (p + w.length + s.length + 3) (arr ++ [.string s])
      (by rw [hj]; simp) (by simp [hp, quoted]; omega) (by decide)
      (hss s2 (List.mem_cons_self _ _)) (fun x hx => hss x (List.mem_cons_of_mem _ hx))
      (by simp at hn; omega)
    obtain ⟨q, hq⟩ := hrec
    refine ⟨q, ?_⟩
    rw [hstep, hq]
    simp

/-! ## C20: round trip of arrays of strings -/

/-- C20: for every array whose elements are strings without a double quote
(the empty array and empty strings included), the whole-document parser reads
the serialization back as the same array, the same elements in the same order,
whatever lies beyond the text. -/
theorem roundtrip_string_array (fmt : JDouble → List Char) (beyond : List Char)
    (ss : List (List Char)) (hss : ∀ s ∈ ss, noQuote s = true) :
    parse (serialize fmt (.array (ss.map .string))) beyond = .ok (.array (ss.map .string)) := by
  cases ss with
  | nil => rfl
  | cons s ss =>
    have hser : serialize fmt (.array ((s :: ss).map .string))
        = ['['] ++ ([] ++ (quoted s
            ++ (serializeArr fmt (ss.map .string) false ++ ']' :: []))) := by
      simp [serialize, serializeArr, quoted]
    have hlen : ss.length ≤ (serialize fmt (.array ((s :: ss).map .string))).length := by
      have := serializeArr_length fmt ss false
      rw [hser]
      simp only [List.length_append, List.length_cons]
      omega
    obtain ⟨q, hq⟩ := arrLoop_strings fmt beyond [] ss
      (serialize fmt (.array ((s :: ss).map .string))) ['['] [] s
      (serialize fmt (.array ((s :: ss).map .string))).length
      (serialize fmt (.array ((s :: ss).map .string))).length 1 [] hser rfl (by simp)
      (hss s (List.mem_cons_self _ _)) (fun x hx => hss x (List.mem_cons_of_mem _ hx)) hlen
    have hc : charAt (serialize fmt (.array ((s :: ss).map .string))) beyond 0 = .ok '[' := by
      rw [hser]; rfl
    have hne : (serialize fmt (.array ((s :: ss).map .string))).isEmpty = false := by
      rw [hser]; rfl
    have hq2 : arrLoop (serialize fmt (.array ((s :: ss).map .string))) beyond
        (parsePos (serialize fmt (.array ((s :: ss).map .string))) beyond)
        ((serialize fmt (.array ((s :: ss).map .string))).length + 1) 1 []
        = .ok (.array ([] ++ .string s :: ss.map .string), q) := hq
    unfold parse
    simp only [hne, hc, hq2, bind, Except.bind]
    rfl

/-- Witness for `roundtrip_string_array`: the array of `a`, the empty string and `c]`. -/
theorem roundtrip_string_array_witness :
    (∀ s ∈ ["a".toList, [], "c]".toList], noQuote s = true) ∧
    parse (serialize (fun d => d.src) (.array (["a".toList, [], "c]".toList].map .string))) []
      = .ok (.array (["a".toList, [], "c]".toList].map .string)) :=
  ⟨by decide, roundtrip_string_array (fun d => d.src) [] ["a".toList, [], "c]".toList]
    (by decide)⟩

/-! ## The object loop over string-valued entries -/

theorem keyScan_found (beyond rest mid pre : List Char) (n : Nat)
    (hmid : ∀ c ∈ mid, c ≠ ':' ∧ c ≠ '}') (hn : mid.length < n) :
    keyScan (pre ++ mid ++ ':' :: rest) beyond n pre.length
      = .ok (.found (pre.length + mid.length)) := by
  induction mid generalizing pre n with
  | nil =>
    obtain ⟨m, rfl⟩ : ∃ m, n = m + 1 := ⟨n - 1, by simp at hn; omega⟩
    have hc := charAt_append_cons pre rest beyond ':'
    rw [keyScan]
    simp only [List.append_nil, hc, bind, Except.bind]
    rfl
  | cons c mid ih =>
    obtain ⟨m, rfl⟩ : ∃ m, n = m + 1 := ⟨n - 1, by simp at hn; omega⟩
    have hc : charAt (pre ++ c :: mid ++ ':' :: rest) beyond pre.length = .ok c := by
      have := charAt_append_cons pre (mid ++ ':' :: rest) beyond c
      simpa using this
    have hne : (c == ':') = false := by
      simpa using (hmid c (List.mem_cons_self _ _)).1
    have hlen : ¬ (pre.length + 1 ≥ (pre ++ c :: mid ++ ':' :: rest).length) := by
      simp
    have hc1 : ∃ c1, charAt (pre ++ c :: mid ++ ':' :: rest) beyond (pre.length + 1) = .ok c1
        ∧ (c1 == '}') = false := by
      cases mid with
      | nil =>
        refine ⟨':', ?_, rfl⟩
        have := charAt_append_cons (pre ++ [c]) rest beyond ':'
        simpa using this
      | cons d mid =>
        refine ⟨d, ?_, ?_⟩
        · have := charAt_append_cons (pre ++ [c]) (mid ++ ':' :: rest) beyond d
          simpa using this
        · simpa using (hmid d (List.mem_cons_of_mem _ (List.mem_cons_self _ _))).2
    obtain ⟨c1, hc1a, hc1b⟩ := hc1
    have hrec := ih (pre ++ [c]) m (fun x hx => hmid x (List.mem_cons_of_mem _ hx))
      (by simp at hn; omega)
    simp only [List.append_assoc, List.singleton_append, List.length_append,
      List.length_singleton] at hrec
    rw [keyScan]
    simp only [hc, hne, hlen, hc1a, hc1b, bind, Except.bind, if_false, Bool.false_eq_true]
    simp only [List.append_assoc, List.cons_append, List.length_cons] at hrec ⊢
    rw [hrec]
    congr 2
    omega

theorem keyText_mem (k : List Char) (h : keyText k = true) :
    ∀ c ∈ k, c ≠ '"' ∧ c ≠ ':' ∧ c ≠ '}' := by
  intro c hc
  have := List.all_eq_true.mp h c hc
  simpa [and_assoc] using this

/-- One iteration of the object loop up to the insertion: after a run of
whitespace, a quoted key, a colon, a run of whitespace and a quoted string
value, the cursor stands after the value and the entry is to be inserted. -/
theorem objLoop_entry_facts (json beyond pre w k w2 s rest : List Char) (p : Nat)
    (hjson : json = pre ++ (w ++ (quoted k ++ ':' :: (w2 ++ (quoted s ++ rest)))))
    (hp : p = pre.length) (hw : ∀ c ∈ w, isWs c = true) (hw2 : ∀ c ∈ w2, isWs c = true)
    (hk : keyText k = true) :
    p < json.length ∧
    (∃ c, charAt json beyond p = .ok c ∧ (c == '}') = false) ∧
    skipWhitespace json p = p + w.length ∧
    charAt json beyond (p + w.length) = .ok '"' ∧
    keyScan json beyond (json.length + 1) (p + w.length)
      = .ok (.found (p + w.length + k.length + 2)) ∧
    substr json (p + w.length + 1)
      (szSub (szSub (p + w.length + k.length + 2) (p + w.length + 1)) 1) = .ok k ∧
    skipWhitespace json (p + w.length + k.length + 2 + 1)
      = p + w.length + k.length + 3 + w2.length ∧
    p + w.length + k.length + 3 + w2.length < json.length := by
  have hj1 : json = pre ++ (w ++ '"' :: (k ++ '"' :: ':' :: (w2 ++ (quoted s ++ rest)))) := by
    rw [hjson]; simp [quoted]
  have hlenj : json.length
      = pre.length + w.length + k.length + 3 + w2.length + s.length + 2 + rest.length := by
    rw [hjson]; simp [quoted]; omega
  have hkm := keyText_mem k hk
  refine ⟨by omega, ?_, ?_, ?_, ?_, ?_, ?_, by omega⟩
  · obtain ⟨c, hc1, hc2⟩ := charAt_ws_or json beyond pre w _ '"' p hj1 hp hw
    refine ⟨c, hc1, ?_⟩
    rcases hc2 with h | h
    · by_contra hcon
      simp only [Bool.not_eq_false, beq_iff_eq] at hcon
      rw [hcon] at h
      exact absurd h (by decide)
    · rw [h]; rfl
  · exact skipWhitespace_of_eq json pre w _ '"' p hj1 hp hw rfl
  · exact charAt_of_eq json beyond (pre ++ w) (k ++ '"' :: ':' :: (w2 ++ (quoted s ++ rest)))
      '"' (p + w.length) (by rw [hj1]; simp) (by simp [hp])
  · have := keyScan_found beyond (w2 ++ (quoted s ++ rest)) ('"' :: k ++ ['"']) (pre ++ w)
      (json.length + 1)
      (by
        intro c hc
        simp only [List.cons_append, List.mem_cons, List.mem_append, List.mem_singleton,
          List.not_mem_nil, or_false] at hc
        rcases hc with h | h | h
        · rw [h]; exact ⟨by decide, by decide⟩
        · exact (hkm c h).2
        · rw [h]; exact ⟨by decide, by decide⟩)
      (by simp; omega)
    have hj2 : pre ++ w ++ ('"' :: k ++ ['"']) ++ ':' :: (w2 ++ (quoted s ++ rest)) = json := by
      rw [hj1]; simp
    rw [hj2] at this
    have e1 : (pre ++ w).length = p + w.length := by simp [hp]
    have e2 : ('"' :: k ++ ['"']).length = k.length + 2 := by simp
    rw [e1, e2] at this
    rw [this]
    congr 2
  · have h1 : szSub (szSub (p + w.length + k.length + 2) (p + w.length + 1)) 1 = k.length := by
      have ha : szSub (p + w.length + k.length + 2) (p + w.length + 1) = k.length + 1 := by
        unfold szSub
        have hle : p + w.length + 1 ≤ p + w.length + k.length + 2 := by omega
        rw [if_pos hle]
        omega
      rw [ha]
      unfold szSub
      have hle : 1 ≤ k.length + 1 := by omega
      rw [if_pos hle]
      omega
    rw [h1]
    unfold substr
    have hgt : ¬ (p + w.length + 1 > json.length) := by omega
    rw [if_neg hgt]
    have : List.drop (p + w.length + 1) json
        = k ++ '"' :: ':' :: (w2 ++ (quoted s ++ rest)) := by
      have hl : (pre ++ w ++ ['"']).length = p + w.length + 1 := by simp [hp]; omega
      rw [← hl]
      have : json = (pre ++ w ++ ['"']) ++ (k ++ '"' :: ':' :: (w2 ++ (quoted s ++ rest))) := by
        rw [hj1]; simp
      rw [this, List.drop_left]
    rw [this, List.take_left]
  · have := skipWhitespace_of_eq json (pre ++ w ++ quoted k ++ [':']) w2
      (s ++ '"' :: rest) '"' (p + w.length + k.length + 2 + 1)
      (by rw [hjson]; simp [quoted]) (by simp [hp, quoted]; omega) hw2 rfl
    rw [this]

theorem objLoop_entry_comma (json beyond pre w k w2 s rest : List Char) (fuel n p : Nat)
    (obj : JsonObject)
    (hjson : json = pre ++ (w ++ (quoted k ++ ':' :: (w2 ++ (quoted s ++ ',' :: rest)))))
    (hp : p = pre.length) (hw : ∀ c ∈ w, isWs c = true) (hw2 : ∀ c ∈ w2, isWs c = true)
    (hk : keyText k = true) (hs : noQuote s = true) :
    objLoop json beyond (parseAt json beyond (fuel + 1)) (n + 1) p obj
      = objLoop json beyond (parseAt json beyond (fuel + 1)) n
          (p + w.length + k.length + 3 + w2.length + s.length + 2 + 1)
          (mapInsert k (.string s) obj) := by
  obtain ⟨hlen, ⟨c, hc1, hc2⟩, h2, h3, h4, h5, h6, h7⟩ :=
    objLoop_entry_facts json beyond pre w k w2 s (',' :: rest) p hjson hp hw hw2 hk
  have h8 : parseAt json beyond (fuel + 1) (p + w.length + k.length + 3 + w2.length)
      = .ok (.string s, p + w.length + k.length + 3 + w2.length + s.length + 2) :=
    parseAt_string json beyond (pre ++ w ++ quoted k ++ [':'] ++ w2) s (',' :: rest) fuel
      (p + w.length + k.length + 3 + w2.length)
      (by rw [hjson]; simp) (by simp [hp, quoted]; omega) hs
  have h9 : charAt json beyond (p + w.length + k.length + 3 + w2.length + s.length + 2)
      = .ok ',' :=
    charAt_of_eq json beyond (pre ++ w ++ quoted k ++ [':'] ++ w2 ++ quoted s) rest ','
      (p + w.length + k.length + 3 + w2.length + s.length + 2)
      (by rw [hjson]; simp) (by simp [hp, quoted]; omega)
  have hge : ¬ (p + w.length + k.length + 3 + w2.length ≥ json.length) := by omega
  rw [objLoop]
  simp only [hlen, if_true, hc1, hc2, h2, h3, h4, h5, h6, hge, h8, h9, bind, Except.bind,
    Bool.false_eq_true, if_false]
  rfl

theorem objLoop_entry_close (json beyond pre w k w2 s rest : List Char) (fuel n p : Nat)
    (obj : JsonObject)
    (hjson : json = pre ++ (w ++ (quoted k ++ ':' :: (w2 ++ (quoted s ++ '}' :: rest)))))
    (hp : p = pre.length) (hw : ∀ c ∈ w, isWs c = true) (hw2 : ∀ c ∈ w2, isWs c = true)
    (hk : keyText k = true) (hs : noQuote s = true) :
    objLoop json beyond (parseAt json beyond (fuel + 1)) (n + 1) p obj
      = .ok (.object (mapInsert k (.string s) obj),
          p + w.length + k.length + 3 + w2.length + s.length + 2 + 1) := by
  obtain ⟨hlen, ⟨c, hc1, hc2⟩, h2, h3, h4, h5, h6, h7⟩ :=
    objLoop_entry_facts json beyond pre w k w2 s ('}' :: rest) p hjson hp hw hw2 hk
  have h8 : parseAt json beyond (fuel + 1) (p + w.length + k.length + 3 + w2.length)
      = .ok (.string s, p + w.length + k.length + 3 + w2.length + s.length + 2) :=
    parseAt_string json beyond (pre ++ w ++ quoted k ++ [':'] ++ w2) s ('}' :: rest) fuel
      (p + w.length + k.length + 3 + w2.length)
      (by rw [hjson]; simp) (by simp [hp, quoted]; omega) hs
  have h9 : charAt json beyond (p + w.length + k.length + 3 + w2.length + s.length + 2)
      = .ok '}' :=
    charAt_of_eq json beyond (pre ++ w ++ quoted k ++ [':'] ++ w2 ++ quoted s) rest '}'
      (p + w.length + k.length + 3 + w2.length + s.length + 2)
      (by rw [hjson]; simp) (by simp [hp, quoted]; omega)
  have h10 : skipWhitespace json (p + w.length + k.length + 3 + w2.length + s.length + 2)
      = p + w.length + k.length + 3 + w2.length + s.length + 2 :=
    skipWhitespace_of_eq json (pre ++ w ++ quoted k ++ [':'] ++ w2 ++ quoted s) [] rest '}'
      (p + w.length + k.length + 3 + w2.length + s.length + 2)
      (by rw [hjson]; simp) (by simp [hp, quoted]; omega) (by simp) rfl
  have hge : ¬ (p + w.length + k.length + 3 + w2.length ≥ json.length) := by omega
  rw [objLoop]
  simp only [hlen, if_true, hc1, hc2, h2, h3, h4, h5, h6, hge, h8, h9, h10, bind, Except.bind,
    Bool.false_eq_true, if_false]
  rfl

theorem intercalate_comma_cons (x : List Char) (xs : List (List Char)) :
    ",".toList.intercalate (x :: xs) = x ++ (xs.map (fun y => ',' :: y)).flatten := by
  induction xs generalizing x with
  | nil => simp [List.intercalate, List.intersperse]
  | cons y ys ih =>
    have h := ih y
    simp only [List.intercalate, List.intersperse, List.flatten, List.map_cons] at h ⊢
    rw [h]
    simp

theorem objLoop_entries (beyond rest : List Char) (es : List (List Char × List Char))
    (e : List Char × List Char) (json pre : List Char) (fuel n p : Nat) (obj : JsonObject)
    (hjson : json = pre ++ (entryText e
      ++ ((es.map (fun x => ',' :: entryText x)).flatten ++ '}' :: rest)))
    (hp : p = pre.length) (he : keyText e.1 = true ∧ noQuote e.2 = true)
    (hes : ∀ x ∈ es, keyText x.1 = true ∧ noQuote x.2 = true) (hn : es.length ≤ n) :
    ∃ q, objLoop json beyond (parseAt json beyond (fuel + 1)) (n + 1) p obj
      = .ok (.object ((es.map strEntry).foldl (fun m x => mapInsert x.1 x.2 m)
          (mapInsert e.1 (.string e.2) obj)), q) := by
  induction es generalizing e pre n p obj with
  | nil =>
    have := objLoop_entry_close json beyond pre [] e.1 [] e.2 rest fuel n p obj
      (by rw [hjson]; simp [entryText]) hp (by simp) (by simp) he.1 he.2
    exact ⟨_, this⟩
  | cons e2 es ih =>
    obtain ⟨m, rfl⟩ : ∃ m, n = m + 1 := ⟨n - 1, by simp at hn; omega⟩
    have hstep := objLoop_entry_comma json beyond pre [] e.1 [] e.2
      (entryText e2 ++ ((es.map (fun x => ',' :: entryText x)).flatten ++ '}' :: rest))
      fuel (m + 1) p obj
      (by rw [hjson]; simp [entryText]) hp (by simp) (by simp) he.1 he.2
    obtain ⟨q, hq⟩ := ih e2 (pre ++ (entryText e ++ [','])) m
      (p + ([] : List Char).length + e.1.length + 3 + ([] : List Char).length + e.2.length + 2 + 1)
      (mapInsert e.1 (.string e.2) obj)
      (by rw [hjson]; simp)
      (by simp [hp, entryText, quoted]; omega)
      (hes e2 (List.mem_cons_self _ _)) (fun x hx => hes x (List.mem_cons_of_mem _ hx))
      (by simp at hn; omega)
    refine ⟨q, ?_⟩
    rw [hstep, hq]
    rfl

/-- The whole-document parser on a compact object of string-valued entries:
the result is the map filled by inserting the entries in text order. -/
theorem parse_compactObject (beyond : List Char) (es : List (List Char × List Char))
    (hes : ∀ x ∈ es, keyText x.1 = true ∧ noQuote x.2 = true) :
    parse (compactObject es) beyond = .ok (.object (mapOfList (es.map strEntry))) := by
  cases es with
  | nil => rfl
  | cons e es =>
    have hser : compactObject (e :: es)
        = ['{'] ++ (entryText e
            ++ ((es.map (fun x => ',' :: entryText x)).flatten ++ '}' :: [])) := by
      unfold compactObject
      rw [List.map_cons, intercalate_comma_cons]
      simp [Function.comp_def]
    have hlen : es.length ≤ (compactObject (e :: es)).length := by
      have h1 : ∀ l : List (List Char × List Char),
          l.length ≤ ((l.map (fun x => ',' :: entryText x)).flatten).length := by
        intro l
        induction l with
        | nil => simp
        | cons a l ih => simp only [List.map_cons, List.flatten_cons, List.length_append,
            List.length_cons]; omega
      have := h1 es
      rw [hser]
      simp only [List.length_append, List.length_cons]
      omega
    obtain ⟨q, hq⟩ := objLoop_entries beyond [] es e (compactObject (e :: es)) ['{']
      (compactObject (e :: es)).length (compactObject (e :: es)).length 1 [] hser rfl
      (hes e (List.mem_cons_self _ _)) (fun x hx => hes x (List.mem_cons_of_mem _ hx)) hlen
    have hc : charAt (compactObject (e :: es)) beyond 0 = .ok '{' := by
      rw [hser]; rfl
    have hne : (compactObject (e :: es)).isEmpty = false := by
      rw [hser]; rfl
    have hq2 : objLoop (compactObject (e :: es)) beyond
        (parsePos (compactObject (e :: es)) beyond)
        ((compactObject (e :: es)).length + 1) 1 []
        = .ok (.object (mapOfList ((e :: es).map strEntry)), q) := hq
    unfold parse
    simp only [hne, hc, hq2, bind, Except.bind]
    rfl

theorem lookup_mapInsert (k k' : List Char) (v : JsonValue) (m : JsonObject) :
    (mapInsert k' v m).lookup k = if k = k' then some v else m.lookup k := by
  induction m with
  | nil =>
    by_cases h : k = k'
    · simp [mapInsert, List.lookup, h]
    · have h' : (k == k') = false := by simpa using h
      simp [mapInsert, List.lookup, h, h']
  | cons a rest ih =>
    obtain ⟨h, hv⟩ := a
    simp only [mapInsert]
    split_ifs with h1 h2 h3 h4 h5
    all_goals simp_all [List.lookup]
    all_goals try (split <;> simp_all)

theorem lookup_foldl_mapInsert (k : List Char) (entries : List (List Char × JsonValue))
    (m : JsonObject) :
    (entries.foldl (fun m x => mapInsert x.1 x.2 m) m).lookup k
      = (entries.reverse.lookup k).or (m.lookup k) := by
  induction entries generalizing m with
  | nil => simp
  | cons e es ih =>
    rw [List.foldl_cons, ih, lookup_mapInsert, List.reverse_cons, List.lookup_append]
    by_cases h : k = e.1
    · simp [h, List.lookup]
      cases (List.lookup e.1 es.reverse) <;> simp
    · have h' : (k == e.1) = false := by simpa using h
      simp [h, h', List.lookup]

/-! ## C17: duplicate keys -/

/-- C17: the compact text `{"k":"x","k":"y"}` (key without `"`, `:`, `}`, values
without `"`) parses to the object with the single key `k` mapped to the string
`y`. More generally a compact object of string-valued entries parses, whatever
lies beyond the text, to the map filled by inserting its entries in text order:
that map holds every key once, and looking a key up gives the value of its
last occurrence in the text. -/
theorem parse_duplicate_keys (beyond k x y : List Char) (es : List (List Char × List Char))
    (hk : keyText k = true) (hx : noQuote x = true) (hy : noQuote y = true)
    (hes : ∀ e ∈ es, keyText e.1 = true ∧ noQuote e.2 = true) :
    parse (compactObject [(k, x), (k, y)]) beyond = .ok (.object [(k, .string y)]) ∧
    parse (compactObject es) beyond = .ok (.object (mapOfList (es.map strEntry))) ∧
    ((mapOfList (es.map strEntry)).map Prod.fst).Nodup ∧
    ∀ key, (mapOfList (es.map strEntry)).lookup key = (es.map strEntry).reverse.lookup key := by
  refine ⟨?_, parse_compactObject beyond es hes, ?_, ?_⟩
  · have h := parse_compactObject beyond [(k, x), (k, y)]
      (by
        intro e he
        simp only [List.mem_cons, List.mem_singleton, List.not_mem_nil, or_false] at he
        rcases he with h | h
        · rw [h]; exact ⟨hk, hx⟩
        · rw [h]; exact ⟨hk, hy⟩)
    rw [h]
    simp [mapOfList, mapInsert, strEntry]
  · exact (foldl_mapInsert_sorted (es.map strEntry) [] List.sorted_nil).nodup
  · intro key
    have := lookup_foldl_mapInsert key (es.map strEntry) []
    simpa [mapOfList] using this

/-- Witness for `parse_duplicate_keys`: the text `{"k":"x","k":"y"}` and the
entries `b: x`, `a: y`, `b: z`. -/
theorem parse_duplicate_keys_witness :
    keyText "k".toList = true ∧ noQuote "x".toList = true ∧ noQuote "y".toList = true ∧
    (∀ e ∈ [("b".toList, "x".toList), ("a".toList, "y".toList), ("b".toList, "z".toList)],
      keyText e.1 = true ∧ noQuote e.2 = true) ∧
    compactObject [("k".toList, "x".toList), ("k".toList, "y".toList)]
      = "\x7b\"k\":\"x\",\"k\":\"y\"\x7d".toList ∧
    parse "\x7b\"k\":\"x\",\"k\":\"y\"\x7d".toList []
      = .ok (.object [("k".toList, .string "y".toList)]) ∧
    parse "\x7b\"b\":\"x\",\"a\":\"y\",\"b\":\"z\"\x7d".toList []
      = .ok (.object [("a".toList, .string "y".toList), ("b".toList, .string "z".toList)]) :=
  ⟨rfl, rfl, rfl, by decide, rfl,
    (parse_duplicate_keys [] "k".toList "x".toList "y".toList
      [("b".toList, "x".toList), ("a".toList, "y".toList), ("b".toList, "z".toList)]
      rfl rfl rfl (by decide)).1,
    (parse_duplicate_keys [] "k".toList "x".toList "y".toList
      [("b".toList, "x".toList), ("a".toList, "y".toList), ("b".toList, "z".toList)]
      rfl rfl rfl (by decide)).2.1⟩

/-! ## C12: what the parser tolerates -/

theorem intercalate_cons_flatten (sep x : List Char) (xs : List (List Char)) :
    sep.intercalate (x :: xs) = x ++ (xs.map (fun y => sep ++ y)).flatten := by
  induction xs generalizing x with
  | nil => simp [List.intercalate, List.intersperse]
  | cons y ys ih =>
    have h := ih y
    simp only [List.intercalate, List.intersperse, List.flatten, List.map_cons] at h ⊢
    rw [h]
    simp

theorem arrLoop_end (json beyond : List Char) (value : Nat → Except Err (JsonValue × Nat))
    (n p : Nat) (arr : JsonArray) (hp : json.length ≤ p) :
    arrLoop json beyond value (n + 1) p arr = .ok (.array arr, p) := by
  rw [arrLoop]
  have : ¬ (p < json.length) := by omega
  simp only [this, if_false]
  rfl

theorem objLoop_end (json beyond : List Char) (value : Nat → Except Err (JsonValue × Nat))
    (n p : Nat) (obj : JsonObject) (hp : json.length ≤ p) :
    objLoop json beyond value (n + 1) p obj = .ok (.object obj, p) := by
  rw [objLoop]
  have : ¬ (p < json.length) := by omega
  simp only [this, if_false]
  rfl

theorem arrLoop_string_nocomma (json beyond pre w s w2 rest : List Char) (fuel n p : Nat)
    (arr : JsonArray)
    (hjson : json = pre ++ (w ++ (quoted s ++ (w2 ++ '"' :: rest)))) (hp : p = pre.length)
    (hw : ∀ c ∈ w, isWs c = true) (hw2 : ∀ c ∈ w2, isWs c = true) (hs : noQuote s = true) :
    arrLoop json beyond (parseAt json beyond (fuel + 1)) (n + 1) p arr
      = arrLoop json beyond (parseAt json beyond (fuel + 1)) n
          (p + w.length + s.length + 2 + w2.length) (arr ++ [.string s]) := by
  have hlen : p < json.length := by rw [hjson, hp]; simp [quoted]
  have hj1 : json = pre ++ (w ++ '"' :: (s ++ '"' :: (w2 ++ '"' :: rest))) := by
    rw [hjson]; simp [quoted]
  obtain ⟨c, hc1, hc2⟩ := charAt_ws_or json beyond pre w _ '"' p hj1 hp hw
  have hcb : (c == ']') = false := by
    rcases hc2 with h | h
    · by_contra hcon
      simp only [Bool.not_eq_false, beq_iff_eq] at hcon
      rw [hcon] at h
      exact absurd h (by decide)
    · rw [h]; rfl
  have h2 : skipWhitespace json p = p + w.length :=
    skipWhitespace_of_eq json pre w _ '"' p hj1 hp hw rfl
  have h3 : charAt json beyond (p + w.length) = .ok '"' :=
    charAt_of_eq json beyond (pre ++ w) (s ++ '"' :: (w2 ++ '"' :: rest)) '"' (p + w.length)
      (by rw [hj1]; simp) (by simp [hp])
  have h4 : parseAt json beyond (fuel + 1) (p + w.length)
      = .ok (.string s, p + w.length + s.length + 2) :=
    parseAt_string json beyond (pre ++ w) s (w2 ++ '"' :: rest) fuel (p + w.length)
      (by rw [hjson]; simp) (by simp [hp]) hs
  obtain ⟨d, hd1, hd2⟩ := charAt_ws_or json beyond (pre ++ w ++ quoted s) w2 rest '"'
    (p + w.length + s.length + 2) (by rw [hjson]; simp) (by simp [hp, quoted]; omega) hw2
  have hdc : (d != ',') = true := by
    rcases hd2 with h | h
    · by_contra hcon
      simp only [bne_iff_ne, ne_eq, not_not] at hcon
      rw [hcon] at h
      exact absurd h (by decide)
    · rw [h]; rfl
  have h6 : skipWhitespace json (p + w.length + s.length + 2)
      = p + w.length + s.length + 2 + w2.length :=
    skipWhitespace_of_eq json (pre ++ w ++ quoted s) w2 rest '"' (p + w.length + s.length + 2)
      (by rw [hjson]; simp) (by simp [hp, quoted]; omega) hw2 rfl
  have h7 : charAt json beyond (p + w.length + s.length + 2 + w2.length) = .ok '"' :=
    charAt_of_eq json beyond (pre ++ w ++ quoted s ++ w2) rest '"'
      (p + w.length + s.length + 2 + w2.length)
      (by rw [hjson]; simp) (by simp [hp, quoted]; omega)
  rw [arrLoop]
  simp only [hlen, if_true, hc1, hcb, h2, h3, h4, hd1, hdc, h6, h7, bind, Except.bind,
    Bool.false_eq_true, if_false]
  rfl

theorem arrLoop_strings_spaced (beyond rest : List Char)
    (ss : List (List Char)) (json pre s : List Char) (fuel n p : Nat) (arr : JsonArray)
    (hjson : json = pre ++ (quoted s
      ++ ((ss.map (fun x => ' ' :: quoted x)).flatten ++ ']' :: rest)))
    (hp : p = pre.length) (hs : noQuote s = true)
    (hss : ∀ x ∈ ss, noQuote x = true) (hn : ss.length ≤ n) :
    ∃ q, arrLoop json beyond (parseAt json beyond (fuel + 1)) (n + 1) p arr
      = .ok (.array (arr ++ .string s :: ss.map .string), q) := by
  induction ss generalizing pre s n p arr with
  | nil =>
    have := arrLoop_string_close json beyond pre [] s rest fuel n p arr
      (by rw [hjson]; simp) hp (by simp) hs
    exact ⟨_, this⟩
  | cons s2 ss ih =>
    obtain ⟨m, rfl⟩ : ∃ m, n = m + 1 := ⟨n - 1, by simp at hn; omega⟩
    have hstep := arrLoop_string_nocomma json beyond pre [] s [' ']
      (s2 ++ '"' :: ((ss.map (fun x => ' ' :: quoted x)).flatten ++ ']' :: rest))
      fuel (m + 1) p arr (by rw [hjson]; simp [quoted]) hp (by simp) (by decide) hs
    obtain ⟨q, hq⟩ := ih (pre ++ (quoted s ++ [' '])) s2 m
      (p + ([] : List Char).length + s.length + 2 + [' '].length) (arr ++ [.string s])
      (by rw [hjson]; simp) (by simp [hp, quoted]; omega)
      (hss s2 (List.mem_cons_self _ _)) (fun x hx => hss x (List.mem_cons_of_mem _ hx))
      (by simp at hn; omega)
    refine ⟨q, ?_⟩
    rw [hstep, hq]
    simp

theorem arrLoop_strings_commas (beyond tail : List Char)
    (ss : List (List Char)) (json pre : List Char) (fuel n p : Nat) (arr : JsonArray)
    (hjson : json = pre ++ ((ss.map (fun x => quoted x ++ [','])).flatten ++ tail))
    (hp : p = pre.length) (hss : ∀ x ∈ ss, noQuote x = true) :
    arrLoop json beyond (parseAt json beyond (fuel + 1)) (ss.length + n) p arr
      = arrLoop json beyond (parseAt json beyond (fuel + 1)) n
          (p + ((ss.map (fun x => quoted x ++ [','])).flatten).length)
          (arr ++ ss.map .string) := by
  induction ss generalizing pre p arr with
  | nil => simp
  | cons s ss ih =>
    have hstep := arrLoop_string_comma json beyond pre [] s
      ((ss.map (fun x => quoted x ++ [','])).flatten ++ tail) fuel (ss.length + n) p arr
      (by rw [hjson]; simp) hp (by simp) (hss s (List.mem_cons_self _ _))
    have hrec := ih (pre ++ (quoted s ++ [','])) (p + ([] : List Char).length + s.length + 3)
      (arr ++ [.string s]) (by rw [hjson]; simp) (by simp [hp, quoted]; omega)
      (fun x hx => hss x (List.mem_cons_of_mem _ hx))
    have e1 : (s :: ss).length + n = ss.length + n + 1 := by simp; omega
    rw [e1, hstep, hrec]
    congr 1
    · simp [quoted]; omega
    · simp

theorem objLoop_entries_commas (beyond tail : List Char)
    (es : List (List Char × List Char)) (json pre : List Char) (fuel n p : Nat)
    (obj : JsonObject)
    (hjson : json = pre ++ ((es.map (fun x => entryText x ++ [','])).flatten ++ tail))
    (hp : p = pre.length) (hes : ∀ x ∈ es, keyText x.1 = true ∧ noQuote x.2 = true) :
    objLoop json beyond (parseAt json beyond (fuel + 1)) (es.length + n) p obj
      = objLoop json beyond (parseAt json beyond (fuel + 1)) n
          (p + ((es.map (fun x => entryText x ++ [','])).flatten).length)
          ((es.map strEntry).foldl (fun m x => mapInsert x.1 x.2 m) obj) := by
  induction es generalizing pre p obj with
  | nil => simp
  | cons e es ih =>
    have he := hes e (List.mem_cons_self _ _)
    have hstep := objLoop_entry_comma json beyond pre [] e.1 [] e.2
      ((es.map (fun x => entryText x ++ [','])).flatten ++ tail) fuel (es.length + n) p obj
      (by rw [hjson]; simp [entryText]) hp (by simp) (by simp) he.1 he.2
    have hrec := ih (pre ++ (entryText e ++ [',']))
      (p + ([] : List Char).length + e.1.length + 3 + ([] : List Char).length
        + e.2.length + 2 + 1)
      (mapInsert e.1 (.string e.2) obj) (by rw [hjson]; simp)
      (by simp [hp, entryText, quoted]; omega)
      (fun x hx => hes x (List.mem_cons_of_mem _ hx))
    have e1 : (e :: es).length + n = es.length + n + 1 := by simp; omega
    rw [e1, hstep, hrec]
    congr 1
    simp [entryText, quoted]
    omega

theorem keyScan_bail (beyond t pre : List Char) (c0 : Char) (n : Nat)
    (h0 : c0 ≠ ':') (ht : ∀ c ∈ t, c ≠ ':') (hn : t.length < n) :
    ∃ q, keyScan (pre ++ c0 :: t) beyond n pre.length = .ok (.bail q) := by
  induction t generalizing pre c0 n with
  | nil =>
    obtain ⟨m, rfl⟩ : ∃ m, n = m + 1 := ⟨n - 1, by simp at hn; omega⟩
    have hc := charAt_append_cons pre [] beyond c0
    have hne : (c0 == ':') = false := by simpa using h0
    refine ⟨pre.length + 2, ?_⟩
    rw [keyScan]
    simp only [hc, hne, bind, Except.bind, Bool.false_eq_true, if_false]
    simp
    rfl
  | cons d t ih =>
    obtain ⟨m, rfl⟩ : ∃ m, n = m + 1 := ⟨n - 1, by simp at hn; omega⟩
    have hc := charAt_append_cons pre (d :: t) beyond c0
    have hne : (c0 == ':') = false := by simpa using h0
    have hlen : ¬ (pre.length + 1 ≥ (pre ++ c0 :: d :: t).length) := by simp
    have hc1 : charAt (pre ++ c0 :: d :: t) beyond (pre.length + 1) = .ok d := by
      have := charAt_append_cons (pre ++ [c0]) t beyond d
      simpa using this
    rw [keyScan]
    simp only [hc, hne, hlen, hc1, bind, Except.bind, Bool.false_eq_true, if_false]
    by_cases hd : d = '}'
    · refine ⟨pre.length + 2, ?_⟩
      rw [hd]
      rfl
    · have hdb : (d == '}') = false := by simpa using hd
      obtain ⟨q, hq⟩ := ih (pre ++ [c0]) d m (ht d (List.mem_cons_self _ _))
        (fun x hx => ht x (List.mem_cons_of_mem _ hx)) (by simp at hn; omega)
      refine ⟨q, ?_⟩
      simp only [List.append_assoc, List.singleton_append, List.length_append,
        List.length_singleton] at hq
      simp only [hdb, Bool.false_eq_true, if_false]
      exact hq

theorem objLoop_nocolon (json beyond pre t : List Char)
    (value : Nat → Except Err (JsonValue × Nat)) (n p : Nat) (obj : JsonObject)
    (hjson : json = pre ++ '"' :: t) (hp : p = pre.length) (ht : ∀ c ∈ t, c ≠ ':') :
    ∃ q, objLoop json beyond value (n + 1) p obj = .ok (.object obj, q) := by
  have hlen : p < json.length := by rw [hjson, hp]; simp
  have hc : charAt json beyond p = .ok '"' := charAt_of_eq json beyond pre t '"' p hjson hp
  have h2 : skipWhitespace json p = p + ([] : List Char).length :=
    skipWhitespace_of_eq json pre [] t '"' p (by simpa using hjson) hp (by simp) rfl
  obtain ⟨q, hq⟩ := keyScan_bail beyond t pre '"' (json.length + 1) (by decide) ht
    (by rw [hjson]; simp; omega)
  rw [← hjson, ← hp] at hq
  refine ⟨q, ?_⟩
  rw [objLoop]
  simp only [List.length_nil, Nat.add_zero] at h2
  simp only [hlen, if_true, hc, h2, hq, bind, Except.bind]
  rfl

theorem parse_of_arrLoop (body beyond : List Char) (v : JsonValue) (q : Nat)
    (h : arrLoop ('[' :: body) beyond (parseAt ('[' :: body) beyond (('[' :: body).length + 1))
      (('[' :: body).length + 1) 1 [] = .ok (v, q)) :
    parse ('[' :: body) beyond = .ok v := by
  have hc : charAt ('[' :: body) beyond 0 = .ok '[' := rfl
  have hne : ('[' :: body).isEmpty = false := rfl
  have h2 : arrLoop ('[' :: body) beyond (parsePos ('[' :: body) beyond)
      (('[' :: body).length + 1) 1 [] = .ok (v, q) := h
  unfold parse
  simp only [hne, hc, h2, bind, Except.bind]
  rfl

theorem parse_of_objLoop (body beyond : List Char) (v : JsonValue) (q : Nat)
    (h : objLoop ('{' :: body) beyond (parseAt ('{' :: body) beyond (('{' :: body).length + 1))
      (('{' :: body).length + 1) 1 [] = .ok (v, q)) :
    parse ('{' :: body) beyond = .ok v := by
  have hc : charAt ('{' :: body) beyond 0 = .ok '{' := rfl
  have hne : ('{' :: body).isEmpty = false := rfl
  have h2 : objLoop ('{' :: body) beyond (parsePos ('{' :: body) beyond)
      (('{' :: body).length + 1) 1 [] = .ok (v, q) := h
  unfold parse
  simp only [hne, hc, h2, bind, Except.bind]
  rfl

theorem length_le_flatten_map {α : Type} (f : α → List Char) (l : List α)
    (hf : ∀ x, 1 ≤ (f x).length) : l.length ≤ ((l.map f).flatten).length := by
  induction l with
  | nil => simp
  | cons a l ih =>
    have := hf a
    simp only [List.map_cons, List.flatten_cons, List.length_append, List.length_cons]
    omega

/-- C12, counterexample: in `{"a":"x" "b":"y"}` the only defect is the missing
`,` between the two entries; after the value `x` the object loop finds neither
`}` nor `,` and throws "Invalid JSON string", whatever lies beyond the text. No
partial object is returned. -/
theorem parse_object_missing_comma_throws :
    parse "\x7b\"a\":\"x\" \"b\":\"y\"\x7d".toList []
      = .error (.invalidArgument "Invalid JSON string") ∧
    parse "\x7b\"a\":\"x\" \"b\":\"y\"\x7d".toList nul
      = .error (.invalidArgument "Invalid JSON string") :=
  ⟨rfl, rfl⟩

/-- C12, amended: for arrays of quoted strings and objects with quoted keys and
quoted string values, the whole-document parser raises no error and returns
the array or object accumulated so far (1) when the `,` between array elements
is missing and a blank stands in its place, (2) when the text of an array or
(3) of an object ends right after a `,`, or right after the opening bracket,
without the closer, and (4) when, after complete entries, an opening quote is
followed by no `:` up to the end of input, so that the key scan ends on a `}`
or on the end of input. This holds whatever lies beyond the text. -/
theorem parse_lenient (beyond : List Char) (ss : List (List Char))
    (es : List (List Char × List Char)) (t : List Char)
    (hss : ∀ s ∈ ss, noQuote s = true)
    (hes : ∀ e ∈ es, keyText e.1 = true ∧ noQuote e.2 = true)
    (ht : ∀ c ∈ t, c ≠ ':') :
    parse ("[".toList ++ " ".toList.intercalate (ss.map quoted) ++ "]".toList) beyond
      = .ok (.array (ss.map .string)) ∧
    parse ("[".toList ++ (ss.map (fun s => quoted s ++ ",".toList)).flatten) beyond
      = .ok (.array (ss.map .string)) ∧
    parse ("\x7b".toList ++ (es.map (fun e => entryText e ++ ",".toList)).flatten) beyond
      = .ok (.object (mapOfList (es.map strEntry))) ∧
    parse ("\x7b".toList ++ (es.map (fun e => entryText e ++ ",".toList)).flatten
        ++ "\"".toList ++ t) beyond
      = .ok (.object (mapOfList (es.map strEntry))) := by
  refine ⟨?_, ?_, ?_, ?_⟩
  · cases ss with
    | nil => rfl
    | cons s ss =>
      have hser : "[".toList ++ " ".toList.intercalate ((s :: ss).map quoted) ++ "]".toList
          = '[' :: (quoted s ++ ((ss.map (fun x => ' ' :: quoted x)).flatten ++ [']'])) := by
        rw [List.map_cons, intercalate_cons_flatten]
        simp [Function.comp_def]
      rw [hser]
      have hlen : ss.length
          ≤ ('[' :: (quoted s ++ ((ss.map (fun x => ' ' :: quoted x)).flatten ++ [']']))).length := by
        have := length_le_flatten_map (fun x => ' ' :: quoted x) ss (by intro x; simp)
        simp only [List.length_cons, List.length_append]
        omega
      obtain ⟨q, hq⟩ := arrLoop_strings_spaced beyond [] ss _ ['['] s _ _ 1 [] rfl rfl
        (hss s (List.mem_cons_self _ _)) (fun x hx => hss x (List.mem_cons_of_mem _ hx)) hlen
      exact parse_of_arrLoop _ beyond _ q hq
  · have hser : "[".toList ++ (ss.map (fun s => quoted s ++ ",".toList)).flatten
        = '[' :: ((ss.map (fun x => quoted x ++ [','])).flatten ++ []) := by
      simp
    rw [hser]
    have hlen := length_le_flatten_map (fun x => quoted x ++ [',']) ss (by intro x; simp)
    obtain ⟨m, hm⟩ : ∃ m, ('[' :: ((ss.map (fun x => quoted x ++ [','])).flatten ++ [])).length + 1
        = ss.length + (m + 1) :=
      ⟨((ss.map (fun x => quoted x ++ [','])).flatten).length + 1 - ss.length, by simp only [List.length_cons, List.length_append, List.length_nil, List.length_singleton]; omega⟩
    have h1 := arrLoop_strings_commas beyond [] ss
      ('[' :: ((ss.map (fun x => quoted x ++ [','])).flatten ++ [])) ['[']
      ('[' :: ((ss.map (fun x => quoted x ++ [','])).flatten ++ [])).length (m + 1) 1 []
      rfl rfl hss
    have h2 := arrLoop_end ('[' :: ((ss.map (fun x => quoted x ++ [','])).flatten ++ [])) beyond
      (parseAt ('[' :: ((ss.map (fun x => quoted x ++ [','])).flatten ++ [])) beyond
        (('[' :: ((ss.map (fun x => quoted x ++ [','])).flatten ++ [])).length + 1))
      m (1 + ((ss.map (fun x => quoted x ++ [','])).flatten).length) ([] ++ ss.map .string)
      (by simp only [List.length_cons, List.length_append, List.length_nil, List.length_singleton]; omega)
    rw [h2, ← hm] at h1
    exact parse_of_arrLoop _ beyond _ _ h1
  · have hser : "\x7b".toList ++ (es.map (fun e => entryText e ++ ",".toList)).flatten
        = '{' :: ((es.map (fun x => entryText x ++ [','])).flatten ++ []) := by
      simp
    rw [hser]
    have hlen := length_le_flatten_map (fun x => entryText x ++ [',']) es (by intro x; simp)
    obtain ⟨m, hm⟩ : ∃ m,
        ('{' :: ((es.map (fun x => entryText x ++ [','])).flatten ++ [])).length + 1
        = es.length + (m + 1) :=
      ⟨((es.map (fun x => entryText x ++ [','])).flatten).length + 1 - es.length, by simp only [List.length_cons, List.length_append, List.length_nil, List.length_singleton]; omega⟩
    have h1 := objLoop_entries_commas beyond [] es
      ('{' :: ((es.map (fun x => entryText x ++ [','])).flatten ++ [])) ['{']
      ('{' :: ((es.map (fun x => entryText x ++ [','])).flatten ++ [])).length (m + 1) 1 []
      rfl rfl hes
    have h2 := objLoop_end ('{' :: ((es.map (fun x => entryText x ++ [','])).flatten ++ [])) beyond
      (parseAt ('{' :: ((es.map (fun x => entryText x ++ [','])).flatten ++ [])) beyond
        (('{' :: ((es.map (fun x => entryText x ++ [','])).flatten ++ [])).length + 1))
      m (1 + ((es.map (fun x => entryText x ++ [','])).flatten).length)
      ((es.map strEntry).foldl (fun m x => mapInsert x.1 x.2 m) []) (by simp only [List.length_cons, List.length_append, List.length_nil, List.length_singleton]; omega)
    rw [h2, ← hm] at h1
    exact parse_of_objLoop _ beyond _ _ h1
  · have hser : "\x7b".toList ++ (es.map (fun e => entryText e ++ ",".toList)).flatten
          ++ "\"".toList ++ t
        = '{' :: ((es.map (fun x => entryText x ++ [','])).flatten ++ '"' :: t) := by
      simp
    rw [hser]
    have hlen := length_le_flatten_map (fun x => entryText x ++ [',']) es (by intro x; simp)
    obtain ⟨m, hm⟩ : ∃ m,
        ('{' :: ((es.map (fun x => entryText x ++ [','])).flatten ++ '"' :: t)).length + 1
        = es.length + (m + 1) :=
      ⟨((es.map (fun x => entryText x ++ [','])).flatten).length + t.length + 2 - es.length,
        by simp only [List.length_cons, List.length_append, List.length_nil, List.length_singleton]; omega⟩
    have h1 := objLoop_entries_commas beyond ('"' :: t) es
      ('{' :: ((es.map (fun x => entryText x ++ [','])).flatten ++ '"' :: t)) ['{']
      ('{' :: ((es.map (fun x => entryText x ++ [','])).flatten ++ '"' :: t)).length (m + 1) 1 []
      rfl rfl hes
    obtain ⟨q, h2⟩ := objLoop_nocolon
      ('{' :: ((es.map (fun x => entryText x ++ [','])).flatten ++ '"' :: t)) beyond
      ('{' :: (es.map (fun x => entryText x ++ [','])).flatten) t
      (parseAt ('{' :: ((es.map (fun x => entryText x ++ [','])).flatten ++ '"' :: t)) beyond
        (('{' :: ((es.map (fun x => entryText x ++ [','])).flatten ++ '"' :: t)).length + 1))
      m (1 + ((es.map (fun x => entryText x ++ [','])).flatten).length)
      ((es.map strEntry).foldl (fun m x => mapInsert x.1 x.2 m) [])
      (by simp) (by simp only [List.length_cons, List.length_append, List.length_nil, List.length_singleton]; omega) ht
    rw [h2, ← hm] at h1
    exact parse_of_objLoop _ beyond _ _ h1

/-- Witness for `parse_lenient`: the strings `a`, `b`, the entry `a: x` and the
rest `b" "y"}` of a key that is followed by no colon. -/
theorem parse_lenient_witness :
    (∀ s ∈ ["a".toList, "b".toList], noQuote s = true) ∧
    (∀ e ∈ [("a".toList, "x".toList)], keyText e.1 = true ∧ noQuote e.2 = true) ∧
    (∀ c ∈ "b\" \"y\"\x7d".toList, c ≠ ':') ∧
    parse "[\"a\" \"b\"]".toList [] = .ok (.array [.string "a".toList, .string "b".toList]) ∧
    parse "[\"a\",\"b\",".toList [] = .ok (.array [.string "a".toList, .string "b".toList]) ∧
    parse "\x7b\"a\":\"x\",".toList [] = .ok (.object [("a".toList, .string "x".toList)]) ∧
    parse "\x7b\"a\":\"x\",\"b\" \"y\"\x7d".toList []
      = .ok (.object [("a".toList, .string "x".toList)]) :=
  ⟨by decide, by decide, by decide,
    (parse_lenient [] ["a".toList, "b".toList] [("a".toList, "x".toList)]
      "b\" \"y\"\x7d".toList (by decide) (by decide) (by decide)).1,
    (parse_lenient [] ["a".toList, "b".toList] [("a".toList, "x".toList)]
      "b\" \"y\"\x7d".toList (by decide) (by decide) (by decide)).2.1,
    (parse_lenient [] ["a".toList, "b".toList] [("a".toList, "x".toList)]
      "b\" \"y\"\x7d".toList (by decide) (by decide) (by decide)).2.2.1,
    (parse_lenient [] ["a".toList, "b".toList] [("a".toList, "x".toList)]
      "b\" \"y\"\x7d".toList (by decide) (by decide) (by decide)).2.2.2⟩

/-! ## C18: termination -/

theorem okOr_bind {α β : Type} {P : β → Prop} {x : Except Err α} {f : α → Except Err β}
    (h : okOr (fun a => okOr P (f a)) x) : okOr P (x >>= f) := by
  cases x with
  | ok a => exact h
  | error e => exact h

theorem okOr_mono {α : Type} {P Q : α → Prop} {x : Except Err α}
    (h : okOr P x) (hpq : ∀ a, P a → Q a) : okOr Q x := by
  cases x with
  | ok a => exact hpq a h
  | error e => exact h

theorem okOr_ne {α : Type} {P : α → Prop} {x : Except Err α} (h : okOr P x) :
    x ≠ .error .outOfFuel := by
  intro hx
  rw [hx] at h
  exact h rfl

theorem okOr_ok {α : Type} {P : α → Prop} {x : Except Err α} {a : α} (h : okOr P x)
    (hx : x = .ok a) : P a := by
  rw [hx] at h
  exact h

theorem okOr_charAt {P : Char → Prop} (json beyond : List Char) (p : Nat)
    (h : ∀ c, charAt json beyond p = .ok c → P c) : okOr P (charAt json beyond p) := by
  cases hc : charAt json beyond p with
  | ok c => exact h c hc
  | error e =>
    unfold charAt at hc
    split at hc
    · cases hc
    · cases hc
      intro h2
      cases h2

theorem okOr_substr {P : List Char → Prop} (json : List Char) (a b : Nat)
    (h : ∀ s, P s) : okOr P (substr json a b) := by
  unfold substr
  split
  · intro h2; cases h2
  · exact h _

theorem okOr_ite {α : Type} {P : α → Prop} {c : Prop} [Decidable c] {x y : Except Err α}
    (hx : c → okOr P x) (hy : ¬ c → okOr P y) : okOr P (if c then x else y) := by
  split
  · rename_i h; exact hx h
  · rename_i h; exact hy h

theorem okOr_stoi {P : Int → Prop} (s : List Char) (h : ∀ i, P i) : okOr P (stoi s) := by
  unfold stoi
  simp only
  apply okOr_ite
  · intro _ h2; cases h2
  · intro _
    apply okOr_ite
    · intro _ h2; cases h2
    · intro _
      exact h _

theorem okOr_stod {P : JDouble → Prop} (s : List Char) (h : ∀ d, P d) : okOr P (stod s) :=
  h _

theorem skipWs_ge (l : List Char) (p : Nat) : p ≤ skipWs l p := by
  induction l generalizing p with
  | nil => exact Nat.le_refl _
  | cons c l ih =>
    unfold skipWs
    split
    · exact Nat.le_trans (Nat.le_succ p) (ih (p + 1))
    · exact Nat.le_refl _

theorem skipWhitespace_ge (json : List Char) (p : Nat) : p ≤ skipWhitespace json p :=
  skipWs_ge _ p

theorem numScan_safe (json beyond : List Char) (n p : Nat) (d : Bool)
    (hn : json.length < n + p) (h0 : 0 < n) :
    okOr (fun r => p ≤ r.1) (numScan json beyond n p d) := by
  induction n generalizing p d with
  | zero => exact absurd h0 (Nat.lt_irrefl 0)
  | succ n ih =>
    rw [numScan]
    split
    · rename_i hlt
      apply okOr_bind
      apply okOr_charAt
      intro c _
      split
      · exact Nat.le_refl _
      · apply okOr_bind
        apply okOr_charAt
        intro c1 _
        exact okOr_mono (ih (p + 1) _ (by omega) (by omega)) (fun r hr => by omega)
    · exact Nat.le_refl _

theorem numScan_progress (json beyond : List Char) (n p : Nat) (d : Bool) (c : Char)
    (hn : json.length < n + p) (hp : p < json.length)
    (hc : charAt json beyond p = .ok c) (hsep : isSep c = false) :
    okOr (fun r => p + 1 ≤ r.1) (numScan json beyond n p d) := by
  obtain ⟨m, rfl⟩ : ∃ m, n = m + 1 := ⟨n - 1, by omega⟩
  rw [numScan]
  simp only [hp, if_true, hc, bind, Except.bind, hsep, Bool.false_eq_true, if_false]
  cases h1 : charAt json beyond (p + 1) with
  | ok c1 => exact numScan_safe json beyond m (p + 1) _ (by omega) (by omega)
  | error e =>
    have := okOr_charAt (P := fun _ => True) json beyond (p + 1) (fun _ _ => trivial)
    rw [h1] at this
    exact this

theorem strScanAt_safe (json beyond : List Char) (n p : Nat)
    (hn : json.length < n + p) (h0 : 0 < n) :
    okOr (fun q => p ≤ q) (strScanAt json beyond n p) := by
  induction n generalizing p with
  | zero => exact absurd h0 (Nat.lt_irrefl 0)
  | succ n ih =>
    rw [strScanAt]
    apply okOr_bind
    apply okOr_charAt
    intro c _
    split
    · exact Nat.le_refl _
    · split
      · intro h2; cases h2
      · exact okOr_mono (ih (p + 1) (by omega) (by omega)) (fun r hr => by omega)

theorem strScanDoc_safe (json beyond : List Char) (n p : Nat)
    (hn : json.length < n + p) (h0 : 0 < n) :
    okOr (fun q => p ≤ q) (strScanDoc json beyond n p) := by
  induction n generalizing p with
  | zero => exact absurd h0 (Nat.lt_irrefl 0)
  | succ n ih =>
    rw [strScanDoc]
    apply okOr_bind
    apply okOr_charAt
    intro c _
    split
    · exact Nat.le_refl _
    · split
      · intro h2; cases h2
      · exact okOr_mono (ih (p + 1) (by omega) (by omega)) (fun r hr => by omega)

theorem keyScan_safe (json beyond : List Char) (n p : Nat)
    (hn : json.length < n + p) (h0 : 0 < n) :
    okOr (fun r => p ≤ r.pos) (keyScan json beyond n p) := by
  induction n generalizing p with
  | zero => exact absurd h0 (Nat.lt_irrefl 0)
  | succ n ih =>
    rw [keyScan]
    apply okOr_bind
    apply okOr_charAt
    intro c _
    split
    · exact Nat.le_refl _
    · split
      · show p ≤ p + 2
        omega
      · apply okOr_bind
        apply okOr_charAt
        intro c1 _
        split
        · show p ≤ p + 2
          omega
        · exact okOr_mono (ih (p + 1) (by omega) (by omega)) (fun r hr => by omega)

theorem numberOf_safe (json beyond : List Char) (b p : Nat) (d : Bool) :
    okOr (fun _ => True) (numberOf json beyond b p d) := by
  unfold numberOf
  apply okOr_ite <;> intro _ <;> apply okOr_ite <;> intro _ <;> apply okOr_bind
  · exact okOr_charAt _ _ _ (fun c _ => okOr_bind (okOr_stod _ (fun _ => trivial)))
  · exact okOr_substr _ _ _ (fun s => okOr_bind (okOr_stod _ (fun _ => trivial)))
  · exact okOr_charAt _ _ _ (fun c _ => okOr_bind (okOr_stoi _ (fun _ => trivial)))
  · exact okOr_substr _ _ _ (fun s => okOr_bind (okOr_stoi _ (fun _ => trivial)))

theorem objLoop_safe (json beyond : List Char) (V : Nat → Except Err (JsonValue × Nat))
    (p0 : Nat)
    (hV : ∀ q, p0 ≤ q → okOr (fun r => q ≤ r.2 ∧ (q < json.length → q < r.2)) (V q))
    (n p : Nat) (obj : JsonObject) (hp : p0 ≤ p) (hn : json.length < n + p) (h0 : 0 < n) :
    okOr (fun r => p ≤ r.2) (objLoop json beyond V n p obj) := by
  induction n generalizing p obj with
  | zero => exact absurd h0 (Nat.lt_irrefl 0)
  | succ n ih =>
    rw [objLoop]
    apply okOr_ite
    · intro hlt
      apply okOr_bind
      apply okOr_charAt
      intro c _
      apply okOr_ite
      · intro _
        exact Nat.le_refl _
      · intro _
        have h1 := skipWhitespace_ge json p
        simp only []
        apply okOr_bind
        apply okOr_charAt
        intro c2 _
        apply okOr_ite
        · intro _
          show p ≤ skipWhitespace json p + 1
          omega
        · intro _
          apply okOr_ite
          · intro _ h2
            cases h2
          · intro _
            apply okOr_bind
            refine okOr_mono (keyScan_safe json beyond (json.length + 1)
              (skipWhitespace json p) (by omega) (by omega)) ?_
            intro r hr
            cases r with
            | bail q =>
              show p ≤ q
              simp only [KeyScan.pos] at hr
              omega
            | found q =>
              simp only [KeyScan.pos] at hr
              have h3 := skipWhitespace_ge json (q + 1)
              simp only []
              apply okOr_bind
              apply okOr_substr
              intro key
              apply okOr_ite
              · intro _
                show p ≤ skipWhitespace json (q + 1)
                omega
              · intro hlt2
                apply okOr_bind
                refine okOr_mono (hV (skipWhitespace json (q + 1)) (by omega)) ?_
                intro r hr2
                obtain ⟨v, pc⟩ := r
                have hr3 : skipWhitespace json (q + 1) ≤ pc
                    ∧ (skipWhitespace json (q + 1) < json.length
                      → skipWhitespace json (q + 1) < pc) := hr2
                have hpc := hr3.2 (by omega)
                apply okOr_bind
                apply okOr_charAt
                intro c3 _
                apply okOr_ite
                · intro _
                  have h4 := skipWhitespace_ge json pc
                  simp only []
                  apply okOr_bind
                  apply okOr_charAt
                  intro c4 _
                  apply okOr_ite
                  · intro _
                    show p ≤ skipWhitespace json pc + 1
                    omega
                  · intro _
                    apply okOr_ite
                    · intro _
                      exact okOr_mono (ih (skipWhitespace json pc + 1) _ (by omega) (by omega)
                        (by omega)) (fun r hr => by omega)
                    · intro _ h2
                      cases h2
                · intro _
                  exact okOr_mono (ih (pc + 1) _ (by omega) (by omega) (by omega))
                    (fun r hr => by omega)
    · intro _
      exact Nat.le_refl _

theorem arrLoop_safe (json beyond : List Char) (V : Nat → Except Err (JsonValue × Nat))
    (p0 : Nat)
    (hV : ∀ q, p0 ≤ q → okOr (fun r => q ≤ r.2 ∧ (q < json.length → q < r.2)) (V q))
    (n p : Nat) (arr : JsonArray) (hp : p0 ≤ p) (hn : json.length < n + p) (h0 : 0 < n) :
    okOr (fun r => p ≤ r.2) (arrLoop json beyond V n p arr) := by
  induction n generalizing p arr with
  | zero => exact absurd h0 (Nat.lt_irrefl 0)
  | succ n ih =>
    rw [arrLoop]
    apply okOr_ite
    · intro hlt
      apply okOr_bind
      apply okOr_charAt
      intro c _
      apply okOr_ite
      · intro _
        exact Nat.le_refl _
      · intro _
        have h1 := skipWhitespace_ge json p
        simp only []
        apply okOr_bind
        apply okOr_charAt
        intro c2 _
        apply okOr_ite
        · intro _
          show p ≤ skipWhitespace json p + 1
          omega
        · intro _
          apply okOr_bind
          refine okOr_mono (hV (skipWhitespace json p) (by omega)) ?_
          intro r hr2
          obtain ⟨v, pc⟩ := r
          have hr3 : skipWhitespace json p ≤ pc
              ∧ (skipWhitespace json p < json.length → skipWhitespace json p < pc) := hr2
          have hpc : p < pc := by
            by_cases h : skipWhitespace json p < json.length
            · have := hr3.2 h
              omega
            · omega
          apply okOr_bind
          apply okOr_charAt
          intro c3 _
          apply okOr_ite
          · intro _
            have h4 := skipWhitespace_ge json pc
            simp only []
            apply okOr_bind
            apply okOr_charAt
            intro c4 _
            apply okOr_ite
            · intro _
              show p ≤ skipWhitespace json pc + 1
              omega
            · intro _
              apply okOr_ite
              · intro _
                exact okOr_mono (ih (skipWhitespace json pc + 1) _ (by omega) (by omega)
                  (by omega)) (fun r hr => by omega)
              · intro _
                exact okOr_mono (ih (skipWhitespace json pc) _ (by omega) (by omega)
                  (by omega)) (fun r hr => by omega)
          · intro _
            exact okOr_mono (ih (pc + 1) _ (by omega) (by omega) (by omega))
              (fun r hr => by omega)
    · intro _
      exact Nat.le_refl _

theorem isSep_of_digit (c : Char) (h : (decide (c ≥ '0') && decide (c ≤ '9')) = true) :
    isSep c = false := by
  simp only [Bool.and_eq_true, decide_eq_true_eq] at h
  have h1 : 48 ≤ c.toNat := h.1
  unfold isSep
  simp only [Bool.or_eq_false_iff, beq_eq_false_iff_ne, ne_eq]
  refine ⟨⟨⟨?_, ?_⟩, ?_⟩, ?_⟩ <;> intro hc <;> rw [hc] at h1 <;> exact absurd h1 (by decide)

theorem parseAt_safe (json beyond : List Char) (fuel pos : Nat)
    (hn : json.length < fuel + pos) (h0 : 0 < fuel) :
    okOr (fun r => pos ≤ r.2 ∧ (pos < json.length → pos < r.2))
      (parseAt json beyond fuel pos) := by
  induction fuel generalizing pos with
  | zero => exact absurd h0 (Nat.lt_irrefl 0)
  | succ fuel ih =>
    rw [parseAt]
    apply okOr_ite
    · intro h
      have : ¬ (pos < json.length) := by
        simp only [Bool.or_eq_true, decide_eq_true_eq, ge_iff_le] at h
        rcases h with h | h
        · have : json = [] := List.isEmpty_iff.mp h
          rw [this]
          simp
        · omega
      exact ⟨Nat.le_refl _, fun h2 => absurd h2 this⟩
    · intro h
      have hlt : pos < json.length := by
        simp only [Bool.or_eq_true, decide_eq_true_eq, ge_iff_le, not_or, not_le] at h
        exact h.2
      have hV : ∀ q, pos + 1 ≤ q →
          okOr (fun r => q ≤ r.2 ∧ (q < json.length → q < r.2)) (parseAt json beyond fuel q) :=
        fun q hq => ih q (by omega) (by omega)
      apply okOr_bind
      apply okOr_charAt
      intro c hc
      apply okOr_ite
      · intro _
        exact okOr_mono (objLoop_safe json beyond _ (pos + 1) hV (json.length + 1) (pos + 1) []
          (Nat.le_refl _) (by omega) (by omega)) (fun r hr => by omega)
      · intro _
        apply okOr_ite
        · intro _
          exact okOr_mono (arrLoop_safe json beyond _ (pos + 1) hV (json.length + 1) (pos + 1) []
            (Nat.le_refl _) (by omega) (by omega)) (fun r hr => by omega)
        · intro _
          apply okOr_ite
          · intro _
            simp only []
            apply okOr_bind
            refine okOr_mono (strScanAt_safe json beyond (json.length + 2) (pos + 1)
              (by omega) (by omega)) ?_
            intro q hq
            apply okOr_bind
            apply okOr_substr
            intro s
            show pos ≤ q + 1 ∧ (pos < json.length → pos < q + 1)
            omega
          · intro _
            apply okOr_ite
            · intro _
              show pos ≤ pos + 1 ∧ (pos < json.length → pos < pos + 1)
              omega
            · intro _
              apply okOr_ite
              · intro _
                show pos ≤ pos + 1 ∧ (pos < json.length → pos < pos + 1)
                omega
              · intro _
                apply okOr_ite
                · intro _
                  show pos ≤ pos + 1 ∧ (pos < json.length → pos < pos + 1)
                  omega
                · intro _
                  apply okOr_ite
                  · intro hdig
                    simp only []
                    apply okOr_bind
                    refine okOr_mono (numScan_progress json beyond (json.length + 1) pos false c
                      (by omega) hlt hc (isSep_of_digit c hdig)) ?_
                    intro r hr
                    obtain ⟨q, d⟩ := r
                    have hr2 : pos + 1 ≤ q := hr
                    apply okOr_bind
                    refine okOr_mono (numberOf_safe json beyond pos q d) ?_
                    intro v _
                    show pos ≤ q ∧ (pos < json.length → pos < q)
                    omega
                  · intro _
                    apply okOr_ite
                    · intro h2
                      omega
                    · intro _
                      exact okOr_mono (ih (pos + 1) (by omega) (by omega))
                        (fun r hr => by omega)

/-! ### The cursor never decreases, for every budget -/

theorem okThen_bind {α β : Type} {P : β → Prop} {x : Except Err α} {f : α → Except Err β}
    (h : okThen (fun a => okThen P (f a)) x) : okThen P (x >>= f) := by
  cases x with
  | ok a => exact h a rfl
  | error e => intro b hb; cases hb

theorem okThen_mono {α : Type} {P Q : α → Prop} {x : Except Err α}
    (h : okThen P x) (hpq : ∀ a, P a → Q a) : okThen Q x :=
  fun a ha => hpq a (h a ha)

theorem okThen_ite {α : Type} {P : α → Prop} {c : Prop} [Decidable c] {x y : Except Err α}
    (hx : c → okThen P x) (hy : ¬ c → okThen P y) : okThen P (if c then x else y) := by
  split
  · rename_i h; exact hx h
  · rename_i h; exact hy h

theorem okThen_any {α : Type} {P : α → Prop} (x : Except Err α) (h : ∀ a, P a) : okThen P x :=
  fun a _ => h a

theorem okThen_pure {α : Type} {P : α → Prop} (a : α) (h : P a) :
    okThen P (pure a : Except Err α) := by
  intro b hb
  cases hb
  exact h

theorem okThen_error {α : Type} {P : α → Prop} (e : Err) :
    okThen P (.error e : Except Err α) := by
  intro b hb
  cases hb

theorem numScan_mono (json beyond : List Char) (n p : Nat) (d : Bool) :
    okThen (fun r => p ≤ r.1) (numScan json beyond n p d) := by
  induction n generalizing p d with
  | zero => exact okThen_error _
  | succ n ih =>
    rw [numScan]
    apply okThen_ite
    · intro _
      apply okThen_bind
      apply okThen_any
      intro c
      apply okThen_ite
      · intro _; exact okThen_pure _ (Nat.le_refl _)
      · intro _
        apply okThen_bind
        apply okThen_any
        intro c1
        exact okThen_mono (ih (p + 1) _) (fun r hr => by omega)
    · intro _; exact okThen_pure _ (Nat.le_refl _)

theorem strScanAt_mono (json beyond : List Char) (n p : Nat) :
    okThen (fun q => p ≤ q) (strScanAt json beyond n p) := by
  induction n generalizing p with
  | zero => exact okThen_error _
  | succ n ih =>
    rw [strScanAt]
    apply okThen_bind
    apply okThen_any
    intro c
    apply okThen_ite
    · intro _; exact okThen_pure _ (Nat.le_refl _)
    · intro _
      apply okThen_ite
      · intro _; exact okThen_error _
      · intro _; exact okThen_mono (ih (p + 1)) (fun r hr => by omega)

theorem keyScan_mono (json beyond : List Char) (n p : Nat) :
    okThen (fun r => p ≤ r.pos) (keyScan json beyond n p) := by
  induction n generalizing p with
  | zero => exact okThen_error _
  | succ n ih =>
    rw [keyScan]
    apply okThen_bind
    apply okThen_any
    intro c
    apply okThen_ite
    · intro _; exact okThen_pure _ (Nat.le_refl _)
    · intro _
      apply okThen_ite
      · intro _
        apply okThen_pure
        show p ≤ p + 2
        omega
      · intro _
        apply okThen_bind
        apply okThen_any
        intro c1
        apply okThen_ite
        · intro _
          apply okThen_pure
          show p ≤ p + 2
          omega
        · intro _; exact okThen_mono (ih (p + 1)) (fun r hr => by omega)

theorem objLoop_mono (json beyond : List Char) (V : Nat → Except Err (JsonValue × Nat))
    (p0 : Nat) (hV : ∀ q, p0 ≤ q → okThen (fun r => q ≤ r.2) (V q))
    (n p : Nat) (obj : JsonObject) (hp : p0 ≤ p) :
    okThen (fun r => p ≤ r.2) (objLoop json beyond V n p obj) := by
  induction n generalizing p obj with
  | zero => exact okThen_error _
  | succ n ih =>
    rw [objLoop]
    apply okThen_ite
    · intro _
      apply okThen_bind
      apply okThen_any
      intro c
      apply okThen_ite
      · intro _; exact okThen_pure _ (Nat.le_refl _)
      · intro _
        have h1 := skipWhitespace_ge json p
        simp only []
        apply okThen_bind
        apply okThen_any
        intro c2
        apply okThen_ite
        · intro _
          apply okThen_pure
          show p ≤ skipWhitespace json p + 1
          omega
        · intro _
          apply okThen_ite
          · intro _; exact okThen_error _
          · intro _
            apply okThen_bind
            refine okThen_mono (keyScan_mono json beyond (json.length + 1)
              (skipWhitespace json p)) ?_
            intro r hr
            cases r with
            | bail q =>
              apply okThen_pure
              show p ≤ q
              simp only [KeyScan.pos] at hr
              omega
            | found q =>
              simp only [KeyScan.pos] at hr
              have h3 := skipWhitespace_ge json (q + 1)
              simp only []
              apply okThen_bind
              apply okThen_any
              intro key
              apply okThen_ite
              · intro _
                apply okThen_pure
                show p ≤ skipWhitespace json (q + 1)
                omega
              · intro _
                apply okThen_bind
                refine okThen_mono (hV (skipWhitespace json (q + 1)) (by omega)) ?_
                intro r hr2
                obtain ⟨v, pc⟩ := r
                have hr3 : skipWhitespace json (q + 1) ≤ pc := hr2
                apply okThen_bind
                apply okThen_any
                intro c3
                apply okThen_ite
                · intro _
                  have h4 := skipWhitespace_ge json pc
                  simp only []
                  apply okThen_bind
                  apply okThen_any
                  intro c4
                  apply okThen_ite
                  · intro _
                    apply okThen_pure
                    show p ≤ skipWhitespace json pc + 1
                    omega
                  · intro _
                    apply okThen_ite
                    · intro _
                      exact okThen_mono (ih (skipWhitespace json pc + 1) _ (by omega))
                        (fun r hr => by omega)
                    · intro _; exact okThen_error _
                · intro _
                  exact okThen_mono (ih (pc + 1) _ (by omega)) (fun r hr => by omega)
    · intro _; exact okThen_pure _ (Nat.le_refl _)

theorem arrLoop_mono (json beyond : List Char) (V : Nat → Except Err (JsonValue × Nat))
    (p0 : Nat) (hV : ∀ q, p0 ≤ q → okThen (fun r => q ≤ r.2) (V q))
    (n p : Nat) (arr : JsonArray) (hp : p0 ≤ p) :
    okThen (fun r => p ≤ r.2) (arrLoop json beyond V n p arr) := by
  induction n generalizing p arr with
  | zero => exact okThen_error _
  | succ n ih =>
    rw [arrLoop]
    apply okThen_ite
    · intro _
      apply okThen_bind
      apply okThen_any
      intro c
      apply okThen_ite
      · intro _; exact okThen_pure _ (Nat.le_refl _)
      · intro _
        have h1 := skipWhitespace_ge json p
        simp only []
        apply okThen_bind
        apply okThen_any
        intro c2
        apply okThen_ite
        · intro _
          apply okThen_pure
          show p ≤ skipWhitespace json p + 1
          omega
        · intro _
          apply okThen_bind
          refine okThen_mono (hV (skipWhitespace json p) (by omega)) ?_
          intro r hr2
          obtain ⟨v, pc⟩ := r
          have hr3 : skipWhitespace json p ≤ pc := hr2
          apply okThen_bind
          apply okThen_any
          intro c3
          apply okThen_ite
          · intro _
            have h4 := skipWhitespace_ge json pc
            simp only []
            apply okThen_bind
            apply okThen_any
            intro c4
            apply okThen_ite
            · intro _
              apply okThen_pure
              show p ≤ skipWhitespace json pc + 1
              omega
            · intro _
              apply okThen_ite
              · intro _
                exact okThen_mono (ih (skipWhitespace json pc + 1) _ (by omega))
                  (fun r hr => by omega)
              · intro _
                exact okThen_mono (ih (skipWhitespace json pc) _ (by omega))
                  (fun r hr => by omega)
          · intro _
            exact okThen_mono (ih (pc + 1) _ (by omega)) (fun r hr => by omega)
    · intro _; exact okThen_pure _ (Nat.le_refl _)

theorem parseAt_mono (json beyond : List Char) (fuel pos : Nat) :
    okThen (fun r => pos ≤ r.2) (parseAt json beyond fuel pos) := by
  induction fuel generalizing pos with
  | zero => exact okThen_error _
  | succ fuel ih =>
    rw [parseAt]
    apply okThen_ite
    · intro _; exact okThen_pure _ (Nat.le_refl _)
    · intro _
      apply okThen_bind
      apply okThen_any
      intro c
      apply okThen_ite
      · intro _
        exact okThen_mono (objLoop_mono json beyond _ (pos + 1) (fun q _ => ih q)
          (json.length + 1) (pos + 1) [] (Nat.le_refl _)) (fun r hr => by omega)
      · intro _
        apply okThen_ite
        · intro _
          exact okThen_mono (arrLoop_mono json beyond _ (pos + 1) (fun q _ => ih q)
            (json.length + 1) (pos + 1) [] (Nat.le_refl _)) (fun r hr => by omega)
        · intro _
          apply okThen_ite
          · intro _
            simp only []
            apply okThen_bind
            refine okThen_mono (strScanAt_mono json beyond (json.length + 2) (pos + 1)) ?_
            intro q hq
            apply okThen_bind
            apply okThen_any
            intro s
            apply okThen_pure
            show pos ≤ q + 1
            omega
          · intro _
            apply okThen_ite
            · intro _; exact okThen_pure _ (Nat.le_succ _)
            · intro _
              apply okThen_ite
              · intro _; exact okThen_pure _ (Nat.le_succ _)
              · intro _
                apply okThen_ite
                · intro _; exact okThen_pure _ (Nat.le_succ _)
                · intro _
                  apply okThen_ite
                  · intro _
                    simp only []
                    apply okThen_bind
                    refine okThen_mono (numScan_mono json beyond (json.length + 1) pos false) ?_
                    intro r hr
                    obtain ⟨q, d⟩ := r
                    have hr2 : pos ≤ q := hr
                    apply okThen_bind
                    apply okThen_any
                    intro v
                    exact okThen_pure _ hr2
                  · intro _
                    apply okThen_ite
                    · intro _; exact okThen_pure _ (Nat.le_refl _)
                    · intro _
                      exact okThen_mono (ih (pos + 1)) (fun r hr => by omega)

/-! ### Nested calls start at a strictly greater cursor -/

theorem bind_congr_ok {α β : Type} {x : Except Err α} {f g : α → Except Err β}
    (h : ∀ a, x = .ok a → f a = g a) : x >>= f = x >>= g := by
  cases x with
  | ok a => exact h a rfl
  | error e => rfl

theorem objLoop_congr (json beyond : List Char) (V W : Nat → Except Err (JsonValue × Nat))
    (p0 : Nat) (hVW : ∀ q, p0 ≤ q → V q = W q)
    (hV : ∀ q, p0 ≤ q → okThen (fun r => q ≤ r.2) (V q))
    (n p : Nat) (obj : JsonObject) (hp : p0 ≤ p) :
    objLoop json beyond V n p obj = objLoop json beyond W n p obj := by
  induction n generalizing p obj with
  | zero => rfl
  | succ n ih =>
    rw [objLoop, objLoop]
    refine ite_congr rfl (fun _ => ?_) (fun _ => rfl)
    apply bind_congr_ok
    intro c _
    refine ite_congr rfl (fun _ => rfl) (fun _ => ?_)
    have h1 := skipWhitespace_ge json p
    simp only []
    apply bind_congr_ok
    intro c2 _
    refine ite_congr rfl (fun _ => rfl) (fun _ => ?_)
    refine ite_congr rfl (fun _ => rfl) (fun _ => ?_)
    apply bind_congr_ok
    intro r hr
    have hr1 := keyScan_mono json beyond (json.length + 1) (skipWhitespace json p) r hr
    cases r with
    | bail q => rfl
    | found q =>
      simp only [KeyScan.pos] at hr1
      have h3 := skipWhitespace_ge json (q + 1)
      simp only []
      apply bind_congr_ok
      intro key _
      refine ite_congr rfl (fun _ => rfl) (fun _ => ?_)
      rw [hVW (skipWhitespace json (q + 1)) (by omega)]
      apply bind_congr_ok
      intro r2 hr2
      rw [← hVW (skipWhitespace json (q + 1)) (by omega)] at hr2
      have hm := hV (skipWhitespace json (q + 1)) (by omega) r2 hr2
      obtain ⟨v, pc⟩ := r2
      have hm2 : skipWhitespace json (q + 1) ≤ pc := hm
      apply bind_congr_ok
      intro c3 _
      refine ite_congr rfl (fun _ => ?_) (fun _ => ?_)
      · have h4 := skipWhitespace_ge json pc
        simp only []
        apply bind_congr_ok
        intro c4 _
        refine ite_congr rfl (fun _ => rfl) (fun _ => ?_)
        refine ite_congr rfl (fun _ => ?_) (fun _ => rfl)
        exact ih (skipWhitespace json pc + 1) _ (by omega)
      · exact ih (pc + 1) _ (by omega)

theorem arrLoop_congr (json beyond : List Char) (V W : Nat → Except Err (JsonValue × Nat))
    (p0 : Nat) (hVW : ∀ q, p0 ≤ q → V q = W q)
    (hV : ∀ q, p0 ≤ q → okThen (fun r => q ≤ r.2) (V q))
    (n p : Nat) (arr : JsonArray) (hp : p0 ≤ p) :
    arrLoop json beyond V n p arr = arrLoop json beyond W n p arr := by
  induction n generalizing p arr with
  | zero => rfl
  | succ n ih =>
    rw [arrLoop, arrLoop]
    refine ite_congr rfl (fun _ => ?_) (fun _ => rfl)
    apply bind_congr_ok
    intro c _
    refine ite_congr rfl (fun _ => rfl) (fun _ => ?_)
    have h1 := skipWhitespace_ge json p
    simp only []
    apply bind_congr_ok
    intro c2 _
    refine ite_congr rfl (fun _ => rfl) (fun _ => ?_)
    rw [hVW (skipWhitespace json p) (by omega)]
    apply bind_congr_ok
    intro r2 hr2
    rw [← hVW (skipWhitespace json p) (by omega)] at hr2
    have hm := hV (skipWhitespace json p) (by omega) r2 hr2
    obtain ⟨v, pc⟩ := r2
    have hm2 : skipWhitespace json p ≤ pc := hm
    apply bind_congr_ok
    intro c3 _
    refine ite_congr rfl (fun _ => ?_) (fun _ => ?_)
    · have h4 := skipWhitespace_ge json pc
      simp only []
      apply bind_congr_ok
      intro c4 _
      refine ite_congr rfl (fun _ => rfl) (fun _ => ?_)
      refine ite_congr rfl (fun _ => ?_) (fun _ => ?_)
      · exact ih (skipWhitespace json pc + 1) _ (by omega)
      · exact ih (skipWhitespace json pc) _ (by omega)
    · exact ih (pc + 1) _ (by omega)

/-- One level of the cursor-level parser consults the level below only at
cursors strictly greater than its own entry cursor. -/
theorem parseAt_congr (json beyond : List Char) (fuel fuel2 pos : Nat)
    (h : ∀ q, pos < q → parseAt json beyond fuel q = parseAt json beyond fuel2 q) :
    parseAt json beyond (fuel + 1) pos = parseAt json beyond (fuel2 + 1) pos := by
  rw [parseAt, parseAt]
  refine ite_congr rfl (fun _ => rfl) (fun _ => ?_)
  apply bind_congr_ok
  intro c _
  refine ite_congr rfl (fun _ => ?_) (fun _ => ?_)
  · exact objLoop_congr json beyond _ _ (pos + 1) (fun q hq => h q (by omega))
      (fun q _ => parseAt_mono json beyond fuel q) _ _ _ (Nat.le_refl _)
  · refine ite_congr rfl (fun _ => ?_) (fun _ => ?_)
    · exact arrLoop_congr json beyond _ _ (pos + 1) (fun q hq => h q (by omega))
        (fun q _ => parseAt_mono json beyond fuel q) _ _ _ (Nat.le_refl _)
    · refine ite_congr rfl (fun _ => rfl) (fun _ => ?_)
      refine ite_congr rfl (fun _ => rfl) (fun _ => ?_)
      refine ite_congr rfl (fun _ => rfl) (fun _ => ?_)
      refine ite_congr rfl (fun _ => rfl) (fun _ => ?_)
      refine ite_congr rfl (fun _ => rfl) (fun _ => ?_)
      refine ite_congr rfl (fun _ => rfl) (fun _ => ?_)
      exact h (pos + 1) (by omega)

/-- Any budget of at least `json.size() + 1 - pos` levels (and at least one)
gives the same result as one level more. -/
theorem parseAt_fuel_succ (json beyond : List Char) (fuel pos : Nat)
    (hn : json.length < fuel + pos) (h0 : 0 < fuel) :
    parseAt json beyond fuel pos = parseAt json beyond (fuel + 1) pos := by
  induction fuel generalizing pos with
  | zero => exact absurd h0 (Nat.lt_irrefl 0)
  | succ fuel ih =>
    by_cases hp : pos < json.length
    · exact parseAt_congr json beyond fuel (fuel + 1) pos
        (fun q hq => ih q (by omega) (by omega))
    · rw [parseAt, parseAt]
      have hc : (json.isEmpty || decide (pos ≥ json.length)) = true := by
        simp only [Bool.or_eq_true, decide_eq_true_eq, ge_iff_le]
        right
        omega
      simp only [hc, if_true]

/-! ### C18: the claim -/

theorem parse_safe (json beyond : List Char) : okOr (fun _ => True) (parse json beyond) := by
  have hV : ∀ q, 0 ≤ q →
      okOr (fun r => q ≤ r.2 ∧ (q < json.length → q < r.2)) (parsePos json beyond q) :=
    fun q _ => parseAt_safe json beyond (json.length + 1) q (by omega) (by omega)
  unfold parse
  apply okOr_ite
  · intro _; trivial
  · intro _
    simp only []
    apply okOr_bind
    apply okOr_charAt
    intro c _
    apply okOr_ite
    · intro _
      apply okOr_bind
      exact okOr_mono (objLoop_safe json beyond _ 0 hV (json.length + 1) 1 []
        (Nat.zero_le _) (by omega) (by omega)) (fun r _ => trivial)
    · intro _
      apply okOr_ite
      · intro _
        apply okOr_bind
        exact okOr_mono (arrLoop_safe json beyond _ 0 hV (json.length + 1) 1 []
          (Nat.zero_le _) (by omega) (by omega)) (fun r _ => trivial)
      · intro _
        apply okOr_ite
        · intro _
          apply okOr_bind
          refine okOr_mono (strScanDoc_safe json beyond (json.length + 1) (1 + 1)
            (by omega) (by omega)) ?_
          intro q _
          apply okOr_bind
          exact okOr_substr _ _ _ (fun _ => trivial)
        · intro _
          apply okOr_ite
          · intro _; trivial
          · intro _
            apply okOr_ite
            · intro _; trivial
            · intro _
              apply okOr_ite
              · intro _; trivial
              · intro _
                apply okOr_ite
                · intro _
                  apply okOr_bind
                  refine okOr_mono (numScan_safe json beyond (json.length + 1) 1 false
                    (by omega) (by omega)) ?_
                  intro r _
                  obtain ⟨q, d⟩ := r
                  simp only []
                  apply okOr_ite <;> intro _ <;> apply okOr_ite <;> intro _ <;> apply okOr_bind
                  · exact okOr_charAt _ _ _
                      (fun c _ => okOr_bind (okOr_stod _ (fun _ => trivial)))
                  · exact okOr_substr _ _ _
                      (fun s => okOr_bind (okOr_stod _ (fun _ => trivial)))
                  · exact okOr_charAt _ _ _
                      (fun c _ => okOr_bind (okOr_stoi _ (fun _ => trivial)))
                  · exact okOr_substr _ _ _
                      (fun s => okOr_bind (okOr_stoi _ (fun _ => trivial)))
                · intro _
                  apply okOr_ite
                  · intro _; trivial
                  · intro _
                    apply okOr_bind
                    exact okOr_mono (hV (1 + 1) (Nat.zero_le _)) (fun r _ => trivial)

/-- C18: both parsers terminate for every text, every memory content beyond it
and every starting cursor: with the depth budget `json.size() + 1` the
embedding never runs out of budget, in the recursion or in any loop, so each
call returns a value or raises. The cursor never decreases, and it advances
when it starts inside the text. A nested call is entered at a cursor strictly
greater than the entry cursor of its caller: one level of `parse(json, pos)`
consults the level below only at cursors greater than `pos`. Therefore a budget
of `json.size() + 1 - pos` levels (at least one) is enough at cursor `pos`, and
any such budget gives the same result. -/
theorem parse_terminates (json beyond : List Char) (pos : Nat) :
    parse json beyond ≠ .error .outOfFuel ∧
    parsePos json beyond pos ≠ .error .outOfFuel ∧
    (∀ v q, parsePos json beyond pos = .ok (v, q) → pos ≤ q ∧ (pos < json.length → pos < q)) ∧
    (∀ fuel fuel2, (∀ q, pos < q → parseAt json beyond fuel q = parseAt json beyond fuel2 q) →
      parseAt json beyond (fuel + 1) pos = parseAt json beyond (fuel2 + 1) pos) ∧
    (∀ fuel, json.length + 1 ≤ fuel + pos → 1 ≤ fuel →
      parseAt json beyond fuel pos ≠ .error .outOfFuel ∧
      parseAt json beyond fuel pos = parseAt json beyond (fuel + 1) pos) := by
  have hs := parseAt_safe json beyond (json.length + 1) pos (by omega) (by omega)
  refine ⟨okOr_ne (parse_safe json beyond), okOr_ne hs, ?_, ?_, ?_⟩
  · intro v q h
    exact @okOr_ok (JsonValue × Nat)
      (fun r => pos ≤ r.2 ∧ (pos < json.length → pos < r.2)) _ (v, q) hs h
  · intro fuel fuel2 h
    exact parseAt_congr json beyond fuel fuel2 pos h
  · intro fuel h1 h2
    exact ⟨okOr_ne (parseAt_safe json beyond fuel pos (by omega) (by omega)),
      parseAt_fuel_succ json beyond fuel pos (by omega) (by omega)⟩

/-! ## C16, continued: the number scan up to a separator -/

theorem numScan_stops (beyond rest ds pre : List Char) (c : Char) (n : Nat) (d : Bool)
    (hds : ∀ x ∈ ds, isSep x = false) (hc : isSep c = true) (hn : ds.length < n) :
    ∃ d2, numScan (pre ++ ds ++ c :: rest) beyond n pre.length d
      = .ok (pre.length + ds.length, d2) := by
  induction ds generalizing pre n d with
  | nil =>
    obtain ⟨m, rfl⟩ : ∃ m, n = m + 1 := ⟨n - 1, by simp at hn; omega⟩
    have h1 := charAt_append_cons pre rest beyond c
    have hlen : pre.length < (pre ++ c :: rest).length := by simp
    refine ⟨d, ?_⟩
    rw [numScan]
    simp only [List.append_nil, hlen, if_true, h1, hc, bind, Except.bind]
    rfl
  | cons x ds ih =>
    obtain ⟨m, rfl⟩ : ∃ m, n = m + 1 := ⟨n - 1, by simp at hn; omega⟩
    have h1 : charAt (pre ++ x :: ds ++ c :: rest) beyond pre.length = .ok x := by
      have := charAt_append_cons pre (ds ++ c :: rest) beyond x
      simpa using this
    have hx : isSep x = false := hds x (List.mem_cons_self _ _)
    have hlen : pre.length < (pre ++ x :: ds ++ c :: rest).length := by simp
    have h2 : ∃ c1, charAt (pre ++ x :: ds ++ c :: rest) beyond (pre.length + 1) = .ok c1 := by
      cases ds with
      | nil =>
        refine ⟨c, ?_⟩
        have := charAt_append_cons (pre ++ [x]) rest beyond c
        simpa using this
      | cons y ds =>
        refine ⟨y, ?_⟩
        have := charAt_append_cons (pre ++ [x]) (ds ++ c :: rest) beyond y
        simpa using this
    obtain ⟨c1, hc1⟩ := h2
    obtain ⟨d2, hd2⟩ := ih (pre ++ [x]) m (d || c1 == '.' || c1 == 'e')
      (fun y hy => hds y (List.mem_cons_of_mem _ hy)) (by simp at hn; omega)
    refine ⟨d2, ?_⟩
    simp only [List.append_assoc, List.singleton_append, List.length_append,
      List.length_singleton] at hd2
    rw [numScan]
    simp only [hlen, if_true, h1, hx, hc1, bind, Except.bind, Bool.false_eq_true, if_false]
    simp only [List.append_assoc, List.cons_append, List.length_cons] at hd2 ⊢
    rw [hd2]
    congr 2
    omega

/-- The cursor-level number branch when a separator follows: for a digit `x` at
the cursor, a run `ds` free of separators after it and then a separator, the
scan stays inside the text and stops on that separator; the call is the
conversion of the scanned text with the cursor left on the separator. The
characters `]`, `}` and space are not separators, so the run may hold them. -/
theorem parsePos_number_stops_at_separator (beyond pre ds rest : List Char) (x c : Char)
    (hx : (decide (x ≥ '0') && decide (x ≤ '9')) = true)
    (hds : ∀ y ∈ ds, isSep y = false) (hc : isSep c = true) :
    ∃ d, parsePos (pre ++ x :: ds ++ c :: rest) beyond pre.length
      = (numberOf (pre ++ x :: ds ++ c :: rest) beyond pre.length
            (pre.length + (ds.length + 1)) d).map
          (fun v => (v, pre.length + (ds.length + 1))) := by
  have h1 : charAt (pre ++ x :: ds ++ c :: rest) beyond pre.length = .ok x := by
    have := charAt_append_cons pre (ds ++ c :: rest) beyond x
    simpa using this
  have hlen : pre.length < (pre ++ x :: ds ++ c :: rest).length := by simp
  obtain ⟨d, hd⟩ := numScan_stops beyond rest (x :: ds) pre c
    ((pre ++ x :: ds ++ c :: rest).length + 1) false
    (by
      intro y hy
      rcases List.mem_cons.mp hy with h | h
      · rw [h]; exact isSep_of_digit x hx
      · exact hds y h)
    hc (by simp; omega)
  have hd2 : numScan (pre ++ x :: ds ++ c :: rest) beyond
      ((pre ++ x :: ds ++ c :: rest).length + 1) pre.length false
      = .ok (pre.length + (ds.length + 1), d) := by
    have e : pre ++ (x :: ds) ++ c :: rest = pre ++ x :: ds ++ c :: rest := by simp
    rw [e] at hd
    simpa using hd
  have hne : (x == '{') = false ∧ (x == '[') = false ∧ (x == '"') = false
      ∧ (x == 't') = false ∧ (x == 'f') = false ∧ (x == 'n') = false := by
    simp only [Bool.and_eq_true, decide_eq_true_eq] at hx
    have h9 : x.toNat ≤ 57 := hx.2
    have h0 : 48 ≤ x.toNat := hx.1
    simp only [beq_eq_false_iff_ne, ne_eq]
    refine ⟨?_, ?_, ?_, ?_, ?_, ?_⟩ <;> intro h <;> rw [h] at h9 h0 <;> revert h9 h0 <;> decide
  obtain ⟨e1, e2, e3, e4, e5, e6⟩ := hne
  refine ⟨d, ?_⟩
  unfold parsePos
  rw [parseAt]
  simp only [isEmpty_of_lt _ _ hlen, h1, Bool.false_or, decide_eq_true_eq, ge_iff_le,
    Nat.not_le.mpr hlen, if_false, bind, Except.bind, e1, e2, e3, e4, e5, e6, hx, hd2,
    Bool.false_eq_true, if_true]
  cases numberOf (pre ++ x :: ds ++ c :: rest) beyond pre.length
      (pre.length + (ds.length + 1)) d <;> rfl

/-! ## C13, continued: the whole-document fallback at any text -/

/-- The whole-document fallback branch on any text of two or more characters
whose first character starts no value: the result is that of the cursor-level
parser started at cursor 2, not at cursor 1. -/
theorem parse_fallback_from_two (c0 c1 : Char) (rest beyond : List Char)
    (h1 : c0 ≠ '{') (h2 : c0 ≠ '[') (h3 : c0 ≠ '"') (h4 : c0 ≠ 't') (h5 : c0 ≠ 'f')
    (h6 : c0 ≠ 'n') (h7 : (decide (c0 ≥ '0') && decide (c0 ≤ '9')) = false) :
    parse (c0 :: c1 :: rest) beyond
      = (parsePos (c0 :: c1 :: rest) beyond 2).map Prod.fst := by
  have hc : charAt (c0 :: c1 :: rest) beyond 0 = .ok c0 := rfl
  have hne : (c0 :: c1 :: rest).isEmpty = false := rfl
  have e1 : (c0 == '{') = false := by simpa using h1
  have e2 : (c0 == '[') = false := by simpa using h2
  have e3 : (c0 == '"') = false := by simpa using h3
  have e4 : (c0 == 't') = false := by simpa using h4
  have e5 : (c0 == 'f') = false := by simpa using h5
  have e6 : (c0 == 'n') = false := by simpa using h6
  have hlen : ¬ (1 ≥ (c0 :: c1 :: rest).length) := by simp
  unfold parse
  simp only [hne, hc, e1, e2, e3, e4, e5, e6, h7, hlen, bind, Except.bind, Bool.false_eq_true,
    if_false]
  cases parsePos (c0 :: c1 :: rest) beyond (1 + 1) <;> rfl

end ToyJson
